import Mathlib

/-!
# bkdeltree: a BK-tree with deletion

Shallow embedding of `bkdeltree.go`.

* Go's `int` is modelled by `Int`, for a 64-bit platform.  The one place where a value
  supplied by the caller enters integer arithmetic is `search`, whose loop bounds
  `dist - maxDist` and `dist + maxDist` wrap around as in Go (`subInt`, `addInt`).  Node
  counts, child counts and indent levels are bounded by the number of nodes and never
  come near the machine range.
* The string distance `levenshtein.Distance` is an external library: every function
  takes the distance `dist : String → String → Int` as its first argument.
* A `map[int]*BKNode` is an association list `BKMap`.  The order of its entries is
  not observable through `get`, `set` and `erase`.  The only place where Go's
  unspecified `range` order matters is `collectFamily`; there the order is supplied
  by an enumeration `ord : BKNode → List Int` giving, for a node, the order in which
  its keys are visited (`IterOrder ord` says that it visits every key once).
* Methods that mutate their receiver return the new value of the receiver together
  with the Go return values.
-/

namespace Bkdeltree

mutual
/-- The type `BKNode`: the word, the cached child count and the child map. -/
inductive BKNode where
  | mk (word : String) (childrenCount : Int) (child : BKMap) : BKNode
  deriving DecidableEq
/-- The type `map[int]*BKNode`, as a list of entries. -/
inductive BKMap where
  | nil : BKMap
  | cons (key : Int) (node : BKNode) (rest : BKMap) : BKMap
  deriving DecidableEq
end

/-- Field `word`. -/
def BKNode.word : BKNode → String
  | .mk w _ _ => w

/-- Field `childrenCount`. -/
def BKNode.childrenCount : BKNode → Int
  | .mk _ cc _ => cc

/-- Field `child`. -/
def BKNode.child : BKNode → BKMap
  | .mk _ _ ch => ch

/-- The map lookup `m[i]`, with `none` for a missing key. -/
def BKMap.get : BKMap → Int → Option BKNode
  | .nil, _ => none
  | .cons k c rest, i => if k = i then some c else rest.get i

/-- The keys of the map, in stored order. -/
def BKMap.keys : BKMap → List Int
  | .nil => []
  | .cons k _ rest => k :: rest.keys

/-- The entries `(key, node)` of the map, in stored order. -/
def BKMap.entries : BKMap → List (Int × BKNode)
  | .nil => []
  | .cons k c rest => (k, c) :: rest.entries

/-- The number of entries, `len(m)`. -/
def BKMap.size : BKMap → Nat
  | .nil => 0
  | .cons _ _ rest => rest.size + 1

/-- The builtin `delete(m, i)`. -/
def BKMap.erase : BKMap → Int → BKMap
  | .nil, _ => .nil
  | .cons k c rest, i => if k = i then rest.erase i else .cons k c (rest.erase i)

/-- The assignment `m[i] = c`. -/
def BKMap.set (m : BKMap) (i : Int) (c : BKNode) : BKMap :=
  .cons i c (m.erase i)

/-- The type `BKDelTree`, with the embedded `stats.numNodes`. -/
structure BKDelTree where
  root : Option BKNode
  numNodes : Int
  deriving DecidableEq

/-- Constructor `NewBKDelTree`. -/
def NewBKDelTree : BKDelTree :=
  { root := none, numNodes := 0 }

/-- Constructor `newBKNode`: `childrenCount` is the zero value, the map is empty. -/
def newBKNode (word : String) : BKNode :=
  .mk word 0 .nil

mutual
/-- Method `BKNode.insert`: the receiver after the call, the returned count and
the returned error. -/
def BKNode.insert (dist : String → String → Int) :
    BKNode → String → BKNode × Int × Option String
  | .mk w cc ch, word =>
    if w = word then
      (.mk w cc ch, 0, some "word already exists")
    else
      match BKMap.insertAt dist ch (dist w word) word with
      | none =>
        (.mk w (cc + 1) (ch.set (dist w word) (newBKNode word)), 1, none)
      | some (ch', insertNum, err) =>
        match err with
        | some e => (.mk w cc ch', 0, some e)
        | none => (.mk w cc ch', insertNum + 1, none)
/-- The call `n.child[d].insert(word)` on the entry with key `d`; `none` when the map
has no such key. -/
def BKMap.insertAt (dist : String → String → Int) :
    BKMap → Int → String → Option (BKMap × Int × Option String)
  | .nil, _, _ => none
  | .cons k c rest, d, word =>
    if k = d then
      some (.cons k (BKNode.insert dist c word).1 rest,
        (BKNode.insert dist c word).2.1, (BKNode.insert dist c word).2.2)
    else
      match BKMap.insertAt dist rest d word with
      | none => none
      | some (rest', r) => some (.cons k c rest', r)
end

/-- Method `BKDelTree.Insert`: the tree after the call and the returned error. -/
def BKDelTree.Insert (dist : String → String → Int) (t : BKDelTree) (word : String) :
    BKDelTree × Option String :=
  match t.root with
  | none => ({ root := some (newBKNode word), numNodes := t.numNodes + 1 }, none)
  | some r =>
    match (r.insert dist word).2.2 with
    | some e => ({ root := some (r.insert dist word).1, numNodes := t.numNodes }, some e)
    | none => ({ root := some (r.insert dist word).1, numNodes := t.numNodes + 1 }, none)

/-- The largest value of Go's `int` on a 64-bit platform, `math.MaxInt64`. -/
def maxInt : Int :=
  9223372036854775807

/-- The smallest value of Go's `int` on a 64-bit platform, `math.MinInt64`. -/
def minInt : Int :=
  -9223372036854775808

/-- The Go `int` that a result of exact value `x` wraps around to (two's complement,
64 bits). -/
def wrapInt (x : Int) : Int :=
  (x + 9223372036854775808) % 18446744073709551616 - 9223372036854775808

/-- The Go expression `x + y` on `int`: the sum wraps around.  The operands of a Go
expression are ints; for an operand outside the int range, which no Go value has, the
exact sum is kept. -/
def addInt (x y : Int) : Int :=
  if minInt ≤ x ∧ x ≤ maxInt ∧ minInt ≤ y ∧ y ≤ maxInt then wrapInt (x + y) else x + y

/-- The Go expression `x - y` on `int`: the difference wraps around (same convention as
`addInt` for operands outside the int range). -/
def subInt (x y : Int) : Int :=
  if minInt ≤ x ∧ x ≤ maxInt ∧ minInt ≤ y ∧ y ≤ maxInt then wrapInt (x - y) else x - y

/-- The loop `for i := lo; i <= hi; i++` returns: it is empty, or its bound is below the
largest int.  With `hi` the largest int the test `i <= hi` never fails, the counter wraps
around and the loop does not end. -/
def loopReturns (lo hi : Int) : Prop :=
  hi < lo ∨ hi < maxInt

/-- The values `lo, lo+1, ..., hi` that the counter of the loop
`for i := lo; i <= hi; i++` takes, in order, when the loop returns (`loopReturns lo hi`);
the counter then stops at `hi + 1` without wrapping. -/
def intRange (lo hi : Int) : List Int :=
  (List.range (hi + 1 - lo).toNat).map (fun (k : Nat) => lo + Int.ofNat k)

mutual
/-- Method `BKNode.search`: the returned slice, when the call returns
(`BKNode.searchReturns`).  The loop bounds are the Go ints `dist - maxDist` and
`dist + maxDist`. -/
def BKNode.search (dist : String → String → Int) :
    BKNode → String → Int → List BKNode → List BKNode
  | .mk w cc ch, word, maxDist, results =>
    (intRange (subInt (dist w word) maxDist) (addInt (dist w word) maxDist)).foldl
      (fun res i => BKMap.searchAt dist ch i word maxDist res)
      (if dist w word ≤ maxDist then results ++ [.mk w cc ch] else results)
/-- The loop body of `search`: `if _, ok := n.child[i]; ok` then
`n.child[i].search(word, maxDist, results)`, else `results`. -/
def BKMap.searchAt (dist : String → String → Int) :
    BKMap → Int → String → Int → List BKNode → List BKNode
  | .nil, _, _, _, results => results
  | .cons k c rest, i, word, maxDist, results =>
    if k = i then BKNode.search dist c word maxDist results
    else BKMap.searchAt dist rest i word maxDist results
end

mutual
/-- The call `n.search(word, maxDist, results)` returns: the loop of `n` returns, and so
does every recursive call that it makes. -/
def BKNode.searchReturns (dist : String → String → Int) : BKNode → String → Int → Prop
  | .mk w _ ch, word, maxDist =>
    loopReturns (subInt (dist w word) maxDist) (addInt (dist w word) maxDist) ∧
      ∀ i ∈ intRange (subInt (dist w word) maxDist) (addInt (dist w word) maxDist),
        BKMap.searchReturnsAt dist ch i word maxDist
/-- The recursive call of the loop body for the key `i`, if any, returns. -/
def BKMap.searchReturnsAt (dist : String → String → Int) : BKMap → Int → String → Int → Prop
  | .nil, _, _, _ => True
  | .cons k c rest, i, word, maxDist =>
    if k = i then BKNode.searchReturns dist c word maxDist
    else BKMap.searchReturnsAt dist rest i word maxDist
end

/-- Method `BKDelTree.Search`: the returned slice, when the call returns. -/
def BKDelTree.Search (dist : String → String → Int) (t : BKDelTree) (word : String)
    (maxDist : Int) : List BKNode :=
  match t.root with
  | none => []
  | some r => r.search dist word maxDist []

/-- The call `t.Search(word, maxDist)` returns. -/
def BKDelTree.SearchReturns (dist : String → String → Int) (t : BKDelTree) (word : String)
    (maxDist : Int) : Prop :=
  match t.root with
  | none => True
  | some r => r.searchReturns dist word maxDist

mutual
/-- Method `BKNode.getParent`: the node the returned pointer refers to, and the
returned error. -/
def BKNode.getParent (dist : String → String → Int) :
    BKNode → String → Option BKNode × Option String
  | .mk w cc ch, word =>
    match ch.get (dist w word) with
    | some c =>
      if c.word = word then (some (.mk w cc ch), none)
      else BKMap.getParentAt dist ch (dist w word) word
    | none => (none, some "word not found")
/-- The call `n.child[i].getParent(word)` on the entry with key `i`. -/
def BKMap.getParentAt (dist : String → String → Int) :
    BKMap → Int → String → Option BKNode × Option String
  | .nil, _, _ => (none, some "word not found")
  | .cons k c rest, i, word =>
    if k = i then BKNode.getParent dist c word
    else BKMap.getParentAt dist rest i word
end

/-- Method `BKDelTree.GetParent`. -/
def BKDelTree.GetParent (dist : String → String → Int) (t : BKDelTree) (word : String) :
    Option BKNode × Option String :=
  match t.root with
  | none => (none, some "root is nil")
  | some r => if r.word = word then (none, none) else r.getParent dist word

mutual
/-- Method `BKNode.collectFamily`; `ord n` is the order in which `range n.child`
visits the keys of `n`. -/
def BKNode.collectFamily (ord : BKNode → List Int) : BKNode → List BKNode
  | .mk w cc ch =>
    .mk w cc ch ::
      ((ord (.mk w cc ch)).map (fun i => BKMap.collectAt ord ch i)).flatten
/-- The call `child.collectFamily()` for the entry with key `i`. -/
def BKMap.collectAt (ord : BKNode → List Int) : BKMap → Int → List BKNode
  | .nil, _ => []
  | .cons k c rest, i =>
    if k = i then BKNode.collectFamily ord c else BKMap.collectAt ord rest i
end

/-- An enumeration order is admissible when it visits every key of the map once. -/
def IterOrder (ord : BKNode → List Int) : Prop :=
  ∀ n : BKNode, (ord n).Perm n.child.keys

/-- The enumeration that visits the keys in stored order. -/
def storedOrder (n : BKNode) : List Int :=
  n.child.keys

/-- The writes of `deleteChild` to its receiver: `delete(n.child, dist)` and
`n.childrenCount--`. -/
def BKNode.dropChild (n : BKNode) (d : Int) : BKNode :=
  .mk n.word (n.childrenCount - 1) (n.child.erase d)

mutual
/-- The tree below `n` after `f` has been applied, in place, to the node that
`n.getParent(word)` points to (the same descent as `getParent`). -/
def BKNode.updateParent (dist : String → String → Int) (f : BKNode → BKNode) :
    BKNode → String → BKNode
  | .mk w cc ch, word =>
    match ch.get (dist w word) with
    | some c =>
      if c.word = word then f (.mk w cc ch)
      else .mk w cc (BKMap.updateParentAt dist f ch (dist w word) word)
    | none => .mk w cc ch
/-- The same update below the entry with key `i`. -/
def BKMap.updateParentAt (dist : String → String → Int) (f : BKNode → BKNode) :
    BKMap → Int → String → BKMap
  | .nil, _, _ => .nil
  | .cons k c rest, i, word =>
    if k = i then .cons k (BKNode.updateParent dist f c word) rest
    else .cons k c (BKMap.updateParentAt dist f rest i word)
end

/-- The loop `for _, subNode := range allSubNodes[1:]` of `deleteChild`:
`t.numNodes--` followed by `t.Insert(subNode.word)`, the error being dropped. -/
def reinsertAll (dist : String → String → Int) (t : BKDelTree) (subs : List BKNode) :
    BKDelTree :=
  subs.foldl
    (fun t sub => (BKDelTree.Insert dist { t with numNodes := t.numNodes - 1 } sub.word).1) t

/-- Method `BKNode.deleteChild` called on the node `n` of the tree `t` that
`GetParent` returned; `r` is the root of `t`.  The result is the tree after the call. -/
def BKNode.deleteChild (dist : String → String → Int) (ord : BKNode → List Int)
    (n : BKNode) (word : String) (t : BKDelTree) (r : BKNode) : BKDelTree :=
  match n.child.get (dist n.word word) with
  | some childNode =>
    if childNode.word = word then
      reinsertAll dist
        { root := some (r.updateParent dist (fun p => p.dropChild (dist n.word word)) word),
          numNodes := t.numNodes - 1 }
        (childNode.collectFamily ord).tail
    else t
  | none => t

/-- The loop of the root branch of `Delete`: `newTree.Insert(subNode.word)` for
every collected node but the first. -/
def rebuild (dist : String → String → Int) (subs : List BKNode) : BKDelTree :=
  subs.foldl (fun nt sub => (BKDelTree.Insert dist nt sub.word).1) NewBKDelTree

/-- Method `BKDelTree.Delete`: the tree after the call and the returned error. -/
def BKDelTree.Delete (dist : String → String → Int) (ord : BKNode → List Int)
    (t : BKDelTree) (word : String) : BKDelTree × Option String :=
  match t.root with
  | none => (t, none)
  | some r =>
    match BKDelTree.GetParent dist t word with
    | (_, some _) => (t, some ("word not found: " ++ word))
    | (none, none) =>
      ({ root := (rebuild dist (r.collectFamily ord).tail).root,
         numNodes := (rebuild dist (r.collectFamily ord).tail).numNodes }, none)
    | (some parentNode, none) => (parentNode.deleteChild dist ord word t r, none)

/-! ## Specification vocabulary -/

mutual
/-- The words stored in the subtree rooted at a node, the node's own word first. -/
def BKNode.words : BKNode → List String
  | .mk w _ ch => w :: BKMap.words ch
/-- The words stored below the entries of a child map. -/
def BKMap.words : BKMap → List String
  | .nil => []
  | .cons _ c rest => BKNode.words c ++ BKMap.words rest
end

mutual
/-- The nodes of the subtree rooted at a node (the node itself first). -/
def BKNode.nodes : BKNode → List BKNode
  | .mk w cc ch => .mk w cc ch :: BKMap.nodes ch
/-- The nodes below the entries of a child map. -/
def BKMap.nodes : BKMap → List BKNode
  | .nil => []
  | .cons _ c rest => BKNode.nodes c ++ BKMap.nodes rest
end

mutual
/-- The number of nodes reachable from a node, itself included. -/
def BKNode.count : BKNode → Nat
  | .mk _ _ ch => BKMap.count ch + 1
/-- The number of nodes reachable through the entries of a child map. -/
def BKMap.count : BKMap → Nat
  | .nil => 0
  | .cons _ c rest => BKNode.count c + BKMap.count rest
end

/-- The words stored in a tree. -/
def BKDelTree.words (t : BKDelTree) : List String :=
  match t.root with
  | none => []
  | some r => r.words

/-- The nodes of a tree. -/
def BKDelTree.nodes (t : BKDelTree) : List BKNode :=
  match t.root with
  | none => []
  | some r => r.nodes

/-- The number of nodes reachable from the root, 0 when the root is absent. -/
def BKDelTree.count (t : BKDelTree) : Nat :=
  match t.root with
  | none => 0
  | some r => r.count

mutual
/-- Well-formedness of a subtree: the cached child count is the size of the map, the
keys of a map are distinct, every word below the entry with key `k` is at distance `k`
from the node's word and differs from it. -/
def BKNode.Inv (dist : String → String → Int) : BKNode → Prop
  | .mk w cc ch => cc = (ch.size : Int) ∧ BKMap.Inv dist ch w
/-- Well-formedness of the child map of a node holding `w`. -/
def BKMap.Inv (dist : String → String → Int) : BKMap → String → Prop
  | .nil, _ => True
  | .cons k c rest, w =>
    (∀ m ∈ c.words, dist w m = k ∧ m ≠ w) ∧ BKNode.Inv dist c ∧ k ∉ rest.keys ∧
      BKMap.Inv dist rest w
end

/-- Well-formedness of a tree: the root subtree is well formed and `numNodes` is the
number of reachable nodes. -/
def BKDelTree.Inv (dist : String → String → Int) (t : BKDelTree) : Prop :=
  match t.root with
  | none => t.numNodes = 0
  | some r => r.Inv dist ∧ t.numNodes = (r.count : Int)

/-- The entry with key `i` replaced by `c` (the effect on a map of a method call that
mutates the node `m[i]`). -/
def BKMap.replace : BKMap → Int → BKNode → BKMap
  | .nil, _, _ => .nil
  | .cons k c rest, i, c' => if k = i then .cons k c' rest else .cons k c (rest.replace i c')

/-- What `insert` does with a word that is not stored. -/
structure BKNode.Inserted (dist : String → String → Int) (n : BKNode) (word : String)
    (r : BKNode × Int × Option String) : Prop where
  err : r.2.2 = none
  inv : r.1.Inv dist
  words : r.1.words.Perm (word :: n.words)
  word : r.1.word = n.word
  count : r.1.count = n.count + 1

/-- The node found by `getParent` for a stored word, and the tree left after the writes
of `deleteChild` to that node. -/
structure BKNode.Detached (dist : String → String → Int) (n : BKNode) (word : String)
    (p x : BKNode) : Prop where
  found : n.getParent dist word = (some p, none)
  mem : p ∈ n.nodes
  get : p.child.get (dist p.word word) = some x
  wordx : x.word = word
  invx : x.Inv dist
  inv : (n.updateParent dist (fun q => q.dropChild (dist p.word word)) word).Inv dist
  words : n.words.Perm
    (x.words ++ (n.updateParent dist (fun q => q.dropChild (dist p.word word)) word).words)
  root : (n.updateParent dist (fun q => q.dropChild (dist p.word word)) word).word = n.word
  count : n.count =
    x.count + (n.updateParent dist (fun q => q.dropChild (dist p.word word)) word).count

/-- The contract of the external distance: non-negative, zero exactly on equal words,
symmetric, and satisfying the triangle inequality. -/
structure IsMetric (dist : String → String → Int) : Prop where
  nonneg : ∀ x y, 0 ≤ dist x y
  eq_zero : ∀ x y, dist x y = 0 ↔ x = y
  symm : ∀ x y, dist x y = dist y x
  triangle : ∀ x y z, dist x z ≤ dist x y + dist y z

/-- The words of a list inserted in order into a new tree, the returned errors being
ignored (the loop `for _, word := range words { _ = bktree.Insert(word) }` of the tests). -/
def insertAll (dist : String → String → Int) (ws : List String) : BKDelTree :=
  ws.foldl (fun t w => (BKDelTree.Insert dist t w).1) NewBKDelTree

/-- A concrete metric used to run the functions: the difference of the lengths, plus
one when the words differ. -/
def exDist (x y : String) : Int :=
  Int.natAbs ((x.length : Int) - (y.length : Int)) + (if x = y then 0 else 1)

/-- The tree obtained by inserting `a`, `bb`, `c`, `ddd`, `ee` under `exDist`:
`a` is the root, with children `c` (key 1), `bb` (key 2) and `ddd` (key 3), and `ee`
hangs under `bb` (key 1). -/
def exTree : BKDelTree :=
  insertAll exDist ["a", "bb", "c", "ddd", "ee"]

/-- The tree `exTree` after `Delete("bb")`, an internal node: `ee` is reinserted. -/
def exTreeDel : BKDelTree :=
  (exTree.Delete exDist storedOrder "bb").1

mutual
/-- The parent-child links below a node: `(p, d, c)` says that the node holding `c` is
the entry with key `d` of the child map of the node holding `p`. -/
def BKNode.edges : BKNode → List (String × Int × String)
  | .mk w _ ch => BKMap.edges ch w
/-- The links below the entries of the child map of the node holding `w`. -/
def BKMap.edges : BKMap → String → List (String × Int × String)
  | .nil, _ => []
  | .cons k c rest, w => (w, k, c.word) :: (BKNode.edges c ++ BKMap.edges rest w)
end

/-- The word and the cached child count of a node. -/
def BKNode.label (n : BKNode) : String × Int :=
  (n.word, n.childrenCount)

mutual
/-- The node reached from `n` by repeatedly following `child[distance(n.word, word)]`
until that key is vacant (the insertion position of `word` in the words of the
specification). -/
def BKNode.descend (dist : String → String → Int) : BKNode → String → BKNode
  | .mk w cc ch, word =>
    match BKMap.descendAt dist ch (dist w word) word with
    | none => .mk w cc ch
    | some p => p
/-- The descent continued below the entry with key `i`; `none` when the key is vacant. -/
def BKMap.descendAt (dist : String → String → Int) : BKMap → Int → String → Option BKNode
  | .nil, _, _ => none
  | .cons k c rest, i, word =>
    if k = i then some (BKNode.descend dist c word) else BKMap.descendAt dist rest i word
end

/-- What the insertion of a word that is not stored changes below a node. -/
structure BKNode.InsertFrame (dist : String → String → Int) (n : BKNode) (word : String)
    (p : BKNode) (labels : List (String × Int)) : Prop where
  mem : p ∈ n.nodes
  vacant : p.child.get (dist p.word word) = none
  edges : (n.insert dist word).1.edges.Perm ((p.word, dist p.word word, word) :: n.edges)
  old : (n.nodes.map BKNode.label).Perm (p.label :: labels)
  new : ((n.insert dist word).1.nodes.map BKNode.label).Perm
    ((word, 0) :: (p.word, p.childrenCount + 1) :: labels)
  leaf : newBKNode word ∈ (n.insert dist word).1.nodes

/-- The call `strings.Repeat(s, count)`. -/
def repeatString (s : String) : Nat → String
  | 0 => ""
  | count + 1 => s ++ repeatString s count

/-- The text `fmt.Sprintf("%s%s:cc[%d] (%d)", ...)` of the line that `pprint` writes for a
node, without the final newline. -/
def pprintText (n : BKNode) (indentLevel : Nat) (indentChar : String) (distance : Int) :
    String :=
  repeatString indentChar indentLevel ++ n.word ++ ":cc[" ++ Int.repr n.childrenCount ++
    "] (" ++ Int.repr distance ++ ")"

mutual
/-- Method `BKNode.pprint`: the content of the string builder after the call, given its
content `sb` before.  The indent level is a count that starts at 0 and only grows;
`ord n` is the order in which `range n.child` visits the keys of `n`. -/
def BKNode.pprint (ord : BKNode → List Int) :
    BKNode → String → Nat → String → Int → String
  | .mk w cc ch, sb, indentLevel, indentChar, distance =>
    (ord (.mk w cc ch)).foldl
      (fun sb d => BKMap.pprintAt ord ch d sb (indentLevel + 1) indentChar)
      (sb ++ (pprintText (.mk w cc ch) indentLevel indentChar distance ++ "\n"))
/-- The call `child.pprint(sb, indentLevel+1, indentChar, dist)` for the entry with key
`d`. -/
def BKMap.pprintAt (ord : BKNode → List Int) :
    BKMap → Int → String → Nat → String → String
  | .nil, _, sb, _, _ => sb
  | .cons k c rest, d, sb, indentLevel, indentChar =>
    if k = d then BKNode.pprint ord c sb indentLevel indentChar d
    else BKMap.pprintAt ord rest d sb indentLevel indentChar
end

/-- Method `BKDelTree.SPPrintf`. -/
def BKDelTree.SPPrintf (ord : BKNode → List Int) (t : BKDelTree) (indentChar : String) :
    String :=
  match t.root with
  | none => ""
  | some r => r.pprint ord "" 0 (if indentChar = "" then ". " else indentChar) 0

mutual
/-- The nodes in the order in which `pprint` writes their lines, each with the indent
level and the distance key it is printed with. -/
def BKNode.printed (ord : BKNode → List Int) : BKNode → Nat → Int → List (BKNode × Nat × Int)
  | .mk w cc ch, indentLevel, distance =>
    (.mk w cc ch, indentLevel, distance) ::
      ((ord (.mk w cc ch)).map (fun d => BKMap.printedAt ord ch d (indentLevel + 1))).flatten
/-- The nodes printed below the entry with key `d`. -/
def BKMap.printedAt (ord : BKNode → List Int) : BKMap → Int → Nat → List (BKNode × Nat × Int)
  | .nil, _, _ => []
  | .cons k c rest, d, indentLevel =>
    if k = d then BKNode.printed ord c indentLevel d else BKMap.printedAt ord rest d indentLevel
end

/-- The trees reachable from `NewBKDelTree()` by `Insert` and `Delete` calls; every
`Delete` comes with the enumeration order its `range` loops happen to use. -/
inductive Reachable (dist : String → String → Int) : BKDelTree → Prop where
  | new : Reachable dist NewBKDelTree
  | insert (t : BKDelTree) (w : String) :
      Reachable dist t → Reachable dist (t.Insert dist w).1
  | delete (t : BKDelTree) (w : String) (ord : BKNode → List Int) :
      Reachable dist t → IterOrder ord → Reachable dist (t.Delete dist ord w).1

/-! ## Maps -/

/-- Induction over the entries of a map. -/
@[induction_eliminator]
theorem BKMap.induct_entries {P : BKMap → Prop} (nil : P .nil)
    (cons : ∀ k c rest, P rest → P (.cons k c rest)) : ∀ m, P m
  | .nil => nil
  | .cons k c rest => cons k c rest (BKMap.induct_entries nil cons rest)

theorem BKMap.get_eq_none {m : BKMap} {i : Int} (h : i ∉ m.keys) : m.get i = none := by
  induction m with
  | nil => rfl
  | cons k c rest ih =>
    simp only [BKMap.keys, List.mem_cons, not_or] at h
    simp [BKMap.get, Ne.symm h.1, ih h.2]

theorem BKMap.erase_of_not_mem {m : BKMap} {i : Int} (h : i ∉ m.keys) : m.erase i = m := by
  induction m with
  | nil => rfl
  | cons k c rest ih =>
    simp only [BKMap.keys, List.mem_cons, not_or] at h
    simp [BKMap.erase, Ne.symm h.1, ih h.2]

theorem BKMap.key_mem_of_word_mem {dist : String → String → Int} {m : BKMap} {w x : String}
    (hinv : BKMap.Inv dist m w) (hx : x ∈ m.words) : dist w x ∈ m.keys ∧ x ≠ w := by
  induction m with
  | nil => simp [BKMap.words] at hx
  | cons k c rest ih =>
    simp only [BKMap.Inv] at hinv
    simp only [BKMap.words, List.mem_append] at hx
    simp only [BKMap.keys, List.mem_cons]
    rcases hx with hx | hx
    · exact ⟨Or.inl (hinv.1 x hx).1, (hinv.1 x hx).2⟩
    · exact ⟨Or.inr (ih hinv.2.2.2 hx).1, (ih hinv.2.2.2 hx).2⟩

theorem BKNode.word_mk (w : String) (cc : Int) (ch : BKMap) : (BKNode.mk w cc ch).word = w := rfl

mutual
theorem BKNode.insert_dup (dist : String → String → Int) :
    ∀ (n : BKNode) (word : String), n.Inv dist → word ∈ n.words →
      n.insert dist word = (n, 0, some "word already exists")
  | .mk w cc ch, word, hinv, hmem => by
    simp only [BKNode.Inv] at hinv
    simp only [BKNode.words, List.mem_cons] at hmem
    by_cases hw : w = word
    · simp [BKNode.insert, hw]
    · have hmem' : word ∈ ch.words := hmem.resolve_left (fun h => hw h.symm)
      simp [BKNode.insert, hw, BKMap.insertAt_dup dist ch w word hinv.2 hmem']
theorem BKMap.insertAt_dup (dist : String → String → Int) :
    ∀ (m : BKMap) (w word : String), BKMap.Inv dist m w → word ∈ m.words →
      BKMap.insertAt dist m (dist w word) word = some (m, 0, some "word already exists")
  | .nil, _, _, _, hmem => by simp [BKMap.words] at hmem
  | .cons k c rest, w, word, hinv, hmem => by
    simp only [BKMap.Inv] at hinv
    simp only [BKMap.words, List.mem_append] at hmem
    by_cases hk : k = dist w word
    · have hc : word ∈ c.words := by
        rcases hmem with h | h
        · exact h
        · exact absurd (hk ▸ (BKMap.key_mem_of_word_mem hinv.2.2.2 h).1) hinv.2.2.1
      simp [BKMap.insertAt, hk, BKNode.insert_dup dist c word hinv.2.1 hc]
    · have hr : word ∈ rest.words := by
        rcases hmem with h | h
        · exact absurd (hinv.1 word h).1.symm hk
        · exact h
      simp [BKMap.insertAt, hk, BKMap.insertAt_dup dist rest w word hinv.2.2.2 hr]
end

/-! ## Insert -/

mutual
theorem BKNode.insert_new (dist : String → String → Int) :
    ∀ (n : BKNode) (word : String), n.Inv dist → word ∉ n.words →
      BKNode.Inserted dist n word (n.insert dist word)
  | .mk w cc ch, word, hinv, hmem => by
    simp only [BKNode.Inv] at hinv
    simp only [BKNode.words, List.mem_cons, not_or] at hmem
    have hw : ¬ w = word := fun h => hmem.1 h.symm
    rcases BKMap.insertAt_new dist ch w word hinv.2 hmem.2 hmem.1 with ⟨hk, h⟩ | ⟨m', num, h, hi, hp, hk, hs, hc⟩
    · simp only [BKNode.insert, hw, if_false, h]
      refine ⟨rfl, ?_, ?_, rfl, ?_⟩
      · simp only [BKNode.Inv, BKMap.set, BKMap.erase_of_not_mem hk, BKMap.size, newBKNode,
          BKMap.words, BKNode.words, List.append_nil, List.mem_singleton]
        refine ⟨by rw [hinv.1]; push_cast; ring, ?_, ⟨by simp [BKMap.size], trivial⟩, hk, hinv.2⟩
        intro m hm
        simp only [BKNode.words, BKMap.words, List.mem_singleton] at hm
        subst hm
        exact ⟨rfl, hmem.1⟩
      · simp only [BKNode.words, BKMap.set, BKMap.erase_of_not_mem hk, BKMap.words, newBKNode,
          List.append_nil, List.singleton_append]
        exact List.Perm.swap _ _ _
      · simp only [BKNode.count, BKMap.set, BKMap.erase_of_not_mem hk, BKMap.count, newBKNode]
        omega
    · simp only [BKNode.insert, hw, if_false, h]
      refine ⟨rfl, ?_, ?_, rfl, ?_⟩
      · simp only [BKNode.Inv]
        exact ⟨by rw [hs]; exact hinv.1, hi⟩
      · simp only [BKNode.words]
        exact (List.Perm.cons w hp).trans (List.Perm.swap _ _ _)
      · simp only [BKNode.count, hc]
theorem BKMap.insertAt_new (dist : String → String → Int) :
    ∀ (m : BKMap) (w word : String), BKMap.Inv dist m w → word ∉ m.words → word ≠ w →
      (dist w word ∉ m.keys ∧ BKMap.insertAt dist m (dist w word) word = none) ∨
      ∃ m' num, BKMap.insertAt dist m (dist w word) word = some (m', num, none) ∧
        BKMap.Inv dist m' w ∧ m'.words.Perm (word :: m.words) ∧ m'.keys = m.keys ∧
        m'.size = m.size ∧ m'.count = m.count + 1
  | .nil, _, _, _, _, _ => by
    left; simp [BKMap.keys, BKMap.insertAt]
  | .cons k c rest, w, word, hinv, hmem, hne => by
    simp only [BKMap.Inv] at hinv
    simp only [BKMap.words, List.mem_append, not_or] at hmem
    by_cases hk : k = dist w word
    · right
      have hc := BKNode.insert_new dist c word hinv.2.1 hmem.1
      refine ⟨.cons k (BKNode.insert dist c word).1 rest, (BKNode.insert dist c word).2.1,
        ?_, ?_, ?_, ?_, ?_, ?_⟩
      · simp only [BKMap.insertAt, hk, if_true, hc.err]
      · simp only [BKMap.Inv]
        refine ⟨?_, hc.inv, hk ▸ hinv.2.2.1, hinv.2.2.2⟩
        intro m hm
        rcases List.mem_cons.1 (hc.words.subset hm) with h | h
        · subst h; exact ⟨hk.symm, hne⟩
        · exact hinv.1 m h
      · simp only [BKMap.words]
        exact (List.Perm.append_right _ hc.words)
      · simp [BKMap.keys, hk]
      · simp [BKMap.size]
      · simp only [BKMap.count, hc.count]; omega
    · rcases BKMap.insertAt_new dist rest w word hinv.2.2.2 hmem.2 hne with ⟨hk', h⟩ | ⟨m', num, h, hi, hp, hk', hs, hc⟩
      · left
        refine ⟨?_, ?_⟩
        · simp only [BKMap.keys, List.mem_cons, not_or]
          exact ⟨fun h => hk h.symm, hk'⟩
        · simp [BKMap.insertAt, hk, h]
      · right
        refine ⟨.cons k c m', num, ?_, ?_, ?_, ?_, ?_, ?_⟩
        · simp [BKMap.insertAt, hk, h]
        · simp only [BKMap.Inv]
          exact ⟨hinv.1, hinv.2.1, hk' ▸ hinv.2.2.1, hi⟩
        · simp only [BKMap.words]
          exact (List.Perm.append_left _ hp).trans List.perm_middle
        · simp [BKMap.keys, hk']
        · simp [BKMap.size, hs]
        · simp only [BKMap.count, hc]; omega
end

/-! ## Lookup in a well-formed map -/

theorem BKMap.mem_keys_of_get {m : BKMap} {i : Int} {c : BKNode} (h : m.get i = some c) :
    i ∈ m.keys := by
  induction m with
  | nil => simp [BKMap.get] at h
  | cons k c' rest ih =>
    by_cases hk : k = i
    · simp [BKMap.keys, hk]
    · simp only [BKMap.get, hk, if_false] at h
      simp [BKMap.keys, ih h]

theorem BKMap.get_of_mem_keys {m : BKMap} {i : Int} (h : i ∈ m.keys) :
    ∃ c, m.get i = some c := by
  induction m with
  | nil => simp [BKMap.keys] at h
  | cons k c' rest ih =>
    by_cases hk : k = i
    · exact ⟨c', by simp [BKMap.get, hk]⟩
    · simp only [BKMap.keys, List.mem_cons] at h
      obtain ⟨c, hc⟩ := ih (h.resolve_left (fun e => hk e.symm))
      exact ⟨c, by simp [BKMap.get, hk, hc]⟩

/-- What a successful lookup in a well-formed map tells about the entry found. -/
theorem BKMap.get_spec {dist : String → String → Int} {m : BKMap} {w : String} {i : Int}
    {c : BKNode} (hinv : BKMap.Inv dist m w) (h : m.get i = some c) :
    c.Inv dist ∧ (∀ x ∈ c.words, dist w x = i ∧ x ≠ w) ∧
      m.words.Perm (c.words ++ (m.erase i).words) ∧
      m.nodes.Perm (c.nodes ++ (m.erase i).nodes) ∧
      m.count = c.count + (m.erase i).count ∧ m.size = (m.erase i).size + 1 := by
  induction m with
  | nil => simp [BKMap.get] at h
  | cons k c' rest ih =>
    simp only [BKMap.Inv] at hinv
    by_cases hk : k = i
    · simp only [BKMap.get, hk, if_true, Option.some.injEq] at h
      subst h
      subst hk
      simp only [BKMap.erase, if_true, BKMap.erase_of_not_mem hinv.2.2.1, BKMap.words,
        BKMap.nodes, BKMap.count, BKMap.size]
      exact ⟨hinv.2.1, hinv.1, List.Perm.refl _, List.Perm.refl _, trivial, trivial⟩
    · simp only [BKMap.get, hk, if_false] at h
      obtain ⟨h1, h2, h3, h4, h5, h6⟩ := ih hinv.2.2.2 h
      simp only [BKMap.erase, hk, if_false, BKMap.words, BKMap.nodes, BKMap.count, BKMap.size]
      refine ⟨h1, h2, ?_, ?_, by omega, by omega⟩
      · exact (List.Perm.append_left _ h3).trans
          ((List.append_assoc _ _ _).symm ▸
            ((List.perm_append_comm.append_right _).trans (List.append_assoc _ _ _ ▸ List.Perm.refl _)))
      · exact (List.Perm.append_left _ h4).trans
          ((List.append_assoc _ _ _).symm ▸
            ((List.perm_append_comm.append_right _).trans (List.append_assoc _ _ _ ▸ List.Perm.refl _)))

theorem BKMap.keys_erase (m : BKMap) (i : Int) : (m.erase i).keys = m.keys.filter (· ≠ i) := by
  induction m with
  | nil => rfl
  | cons k c rest ih =>
    by_cases hk : k = i
    · simp [BKMap.erase, BKMap.keys, hk, ih]
    · simp [BKMap.erase, BKMap.keys, hk, ih]

theorem BKMap.words_erase_subset (m : BKMap) (i : Int) : (m.erase i).words ⊆ m.words := by
  induction m with
  | nil => simp [BKMap.erase]
  | cons k c rest ih =>
    by_cases hk : k = i
    · simp only [BKMap.erase, hk, if_true, BKMap.words]
      exact fun x hx => List.mem_append_right _ (ih hx)
    · simp only [BKMap.erase, hk, if_false, BKMap.words]
      intro x hx
      rcases List.mem_append.1 hx with h | h
      · exact List.mem_append_left _ h
      · exact List.mem_append_right _ (ih h)

theorem BKMap.inv_erase {dist : String → String → Int} {m : BKMap} {w : String} (i : Int)
    (hinv : BKMap.Inv dist m w) : BKMap.Inv dist (m.erase i) w := by
  induction m with
  | nil => simpa [BKMap.erase] using hinv
  | cons k c rest ih =>
    simp only [BKMap.Inv] at hinv
    by_cases hk : k = i
    · simp only [BKMap.erase, hk, if_true]
      exact ih hinv.2.2.2
    · simp only [BKMap.erase, hk, if_false, BKMap.Inv]
      refine ⟨hinv.1, hinv.2.1, ?_, ih hinv.2.2.2⟩
      rw [BKMap.keys_erase]
      exact fun h => hinv.2.2.1 (List.mem_filter.1 h).1

theorem BKMap.get_erase (m : BKMap) (i j : Int) :
    (m.erase i).get j = if j = i then none else m.get j := by
  induction m with
  | nil => simp [BKMap.erase, BKMap.get]
  | cons k c rest ih =>
    by_cases hk : k = i
    · by_cases hj : j = i
      · subst hj; simp [BKMap.erase, hk, ih]
      · simp [BKMap.erase, hk, ih, hj, BKMap.get, Ne.symm hj]
    · by_cases hkj : k = j
      · simp [BKMap.erase, hk, BKMap.get, hkj, hkj ▸ hk]
      · simp [BKMap.erase, hk, BKMap.get, hkj, ih]

/-- Replacing the entry found by a lookup, in a well-formed map. -/
theorem BKMap.replace_spec {dist : String → String → Int} {m : BKMap} {w : String} {i : Int}
    {c : BKNode} (c' : BKNode) (hinv : BKMap.Inv dist m w) (h : m.get i = some c) :
    (c'.Inv dist → (∀ x ∈ c'.words, dist w x = i ∧ x ≠ w) → BKMap.Inv dist (m.replace i c') w) ∧
      (m.replace i c').words.Perm (c'.words ++ (m.erase i).words) ∧
      (m.replace i c').nodes.Perm (c'.nodes ++ (m.erase i).nodes) ∧
      (m.replace i c').count = c'.count + (m.erase i).count ∧
      (m.replace i c').size = m.size ∧ (m.replace i c').keys = m.keys := by
  induction m with
  | nil => simp [BKMap.get] at h
  | cons k c0 rest ih =>
    simp only [BKMap.Inv] at hinv
    by_cases hk : k = i
    · subst hk
      simp only [BKMap.replace, if_true, BKMap.erase, BKMap.erase_of_not_mem hinv.2.2.1,
        BKMap.words, BKMap.nodes, BKMap.count, BKMap.size, BKMap.keys, BKMap.Inv]
      exact ⟨fun h1 h2 => ⟨h2, h1, hinv.2.2.1, hinv.2.2.2⟩, List.Perm.refl _, List.Perm.refl _,
        trivial, trivial, trivial⟩
    · simp only [BKMap.get, hk, if_false] at h
      obtain ⟨h1, h3, h4, h5, h6, h7⟩ := ih hinv.2.2.2 h
      simp only [BKMap.replace, hk, if_false, BKMap.erase, BKMap.words, BKMap.nodes,
        BKMap.count, BKMap.size, BKMap.keys, BKMap.Inv, h7]
      refine ⟨fun a b => ⟨hinv.1, hinv.2.1, hinv.2.2.1, h1 a b⟩, ?_, ?_, by omega, by omega, trivial⟩
      · exact (List.Perm.append_left _ h3).trans
          ((List.append_assoc _ _ _).symm ▸
            ((List.perm_append_comm.append_right _).trans (List.append_assoc _ _ _ ▸ List.Perm.refl _)))
      · exact (List.Perm.append_left _ h4).trans
          ((List.append_assoc _ _ _).symm ▸
            ((List.perm_append_comm.append_right _).trans (List.append_assoc _ _ _ ▸ List.Perm.refl _)))

theorem BKMap.get_replace (m : BKMap) (i j : Int) (c' : BKNode) :
    (m.replace i c').get j = if j = i then (m.get i).map (fun _ => c') else m.get j := by
  induction m with
  | nil => simp [BKMap.replace, BKMap.get]
  | cons k c rest ih =>
    by_cases hk : k = i
    · by_cases hj : j = i
      · simp [BKMap.replace, BKMap.get, hk, hj]
      · simp [BKMap.replace, BKMap.get, hk, hj, Ne.symm hj]
    · by_cases hkj : k = j
      · simp [BKMap.replace, hk, BKMap.get, hkj, hkj ▸ hk]
      · simp [BKMap.replace, hk, BKMap.get, hkj, ih]

theorem BKMap.get_of_word_mem {dist : String → String → Int} {m : BKMap} {w x : String}
    (hinv : BKMap.Inv dist m w) (hx : x ∈ m.words) :
    ∃ c, m.get (dist w x) = some c ∧ x ∈ c.words := by
  obtain ⟨c, hc⟩ := BKMap.get_of_mem_keys (BKMap.key_mem_of_word_mem hinv hx).1
  refine ⟨c, hc, ?_⟩
  obtain ⟨-, -, h3, -⟩ := BKMap.get_spec hinv hc
  rcases List.mem_append.1 (h3.subset hx) with h | h
  · exact h
  · exfalso
    have h1 := BKMap.key_mem_of_word_mem (BKMap.inv_erase (dist w x) hinv) h
    rw [BKMap.keys_erase] at h1
    simpa using (List.mem_filter.1 h1.1).2

/-! ## The helper functions are a lookup followed by the method call -/

theorem BKMap.insertAt_eq (dist : String → String → Int) (m : BKMap) (i : Int) (word : String) :
    BKMap.insertAt dist m i word =
      (m.get i).map (fun c => (m.replace i (c.insert dist word).1,
        (c.insert dist word).2.1, (c.insert dist word).2.2)) := by
  induction m with
  | nil => rfl
  | cons k c rest ih =>
    by_cases hk : k = i
    · simp [BKMap.insertAt, BKMap.get, BKMap.replace, hk]
    · simp only [BKMap.insertAt, BKMap.get, BKMap.replace, hk, if_false, ih]
      cases rest.get i <;> rfl

theorem BKMap.searchAt_eq (dist : String → String → Int) (m : BKMap) (i : Int) (word : String)
    (maxDist : Int) (results : List BKNode) :
    BKMap.searchAt dist m i word maxDist results =
      match m.get i with
      | some c => c.search dist word maxDist results
      | none => results := by
  induction m with
  | nil => rfl
  | cons k c rest ih =>
    by_cases hk : k = i
    · simp [BKMap.searchAt, BKMap.get, hk]
    · simp only [BKMap.searchAt, BKMap.get, hk, if_false, ih]

theorem BKMap.getParentAt_eq (dist : String → String → Int) (m : BKMap) (i : Int)
    (word : String) :
    BKMap.getParentAt dist m i word =
      match m.get i with
      | some c => c.getParent dist word
      | none => (none, some "word not found") := by
  induction m with
  | nil => rfl
  | cons k c rest ih =>
    by_cases hk : k = i
    · simp [BKMap.getParentAt, BKMap.get, hk]
    · simp only [BKMap.getParentAt, BKMap.get, hk, if_false, ih]

theorem BKMap.collectAt_eq (ord : BKNode → List Int) (m : BKMap) (i : Int) :
    BKMap.collectAt ord m i =
      match m.get i with
      | some c => c.collectFamily ord
      | none => [] := by
  induction m with
  | nil => rfl
  | cons k c rest ih =>
    by_cases hk : k = i
    · simp [BKMap.collectAt, BKMap.get, hk]
    · simp only [BKMap.collectAt, BKMap.get, hk, if_false, ih]

theorem BKMap.updateParentAt_eq (dist : String → String → Int) (f : BKNode → BKNode)
    (m : BKMap) (i : Int) (word : String) :
    BKMap.updateParentAt dist f m i word =
      match m.get i with
      | some c => m.replace i (c.updateParent dist f word)
      | none => m := by
  induction m with
  | nil => rfl
  | cons k c rest ih =>
    by_cases hk : k = i
    · simp [BKMap.updateParentAt, BKMap.get, BKMap.replace, hk]
    · simp only [BKMap.updateParentAt, BKMap.get, BKMap.replace, hk, if_false, ih]
      cases rest.get i <;> rfl

/-! ## Induction over a tree -/

theorem BKMap.count_le_of_get {m : BKMap} {i : Int} {c : BKNode} (h : m.get i = some c) :
    c.count ≤ m.count := by
  induction m with
  | nil => simp [BKMap.get] at h
  | cons k c' rest ih =>
    by_cases hk : k = i
    · simp only [BKMap.get, hk, if_true, Option.some.injEq] at h
      subst h
      simp [BKMap.count]
    · simp only [BKMap.get, hk, if_false] at h
      have := ih h
      simp only [BKMap.count]
      omega

/-- Induction over a tree: a property holds of a node as soon as it holds of every
child that a lookup in the node's map can return. -/
theorem BKNode.induct {P : BKNode → Prop}
    (h : ∀ w cc ch, (∀ i c, BKMap.get ch i = some c → P c) → P (.mk w cc ch)) (n : BKNode) :
    P n := by
  suffices hs : ∀ k (n : BKNode), n.count ≤ k → P n from hs _ n (Nat.le_refl _)
  intro k
  induction k with
  | zero =>
    intro n hn
    cases n with
    | mk w cc ch => simp [BKNode.count] at hn
  | succ k ih =>
    intro n hn
    cases n with
    | mk w cc ch =>
      refine h w cc ch (fun i c hc => ih c ?_)
      have := BKMap.count_le_of_get hc
      simp only [BKNode.count] at hn
      omega

mutual
theorem BKNode.inv_nodup (dist : String → String → Int) :
    ∀ n : BKNode, n.Inv dist → n.words.Nodup
  | .mk w cc ch, hinv => by
    simp only [BKNode.Inv] at hinv
    simp only [BKNode.words, List.nodup_cons]
    exact ⟨fun h => (BKMap.key_mem_of_word_mem hinv.2 h).2 rfl, BKMap.inv_words_nodup dist ch w hinv.2⟩
theorem BKMap.inv_words_nodup (dist : String → String → Int) :
    ∀ (m : BKMap) (w : String), BKMap.Inv dist m w → m.words.Nodup
  | .nil, _, _ => by simp [BKMap.words]
  | .cons k c rest, w, hinv => by
    simp only [BKMap.Inv] at hinv
    simp only [BKMap.words]
    refine List.Nodup.append (BKNode.inv_nodup dist c hinv.2.1)
      (BKMap.inv_words_nodup dist rest w hinv.2.2.2) ?_
    intro x hx hx'
    exact hinv.2.2.1 ((hinv.1 x hx).1 ▸ (BKMap.key_mem_of_word_mem hinv.2.2.2 hx').1)
end

mutual
theorem BKNode.words_eq_map_nodes : ∀ n : BKNode, n.words = n.nodes.map BKNode.word
  | .mk w cc ch => by
    simp only [BKNode.words, BKNode.nodes, List.map_cons, BKMap.words_eq_map_below ch]
    rfl
theorem BKMap.words_eq_map_below : ∀ m : BKMap, m.words = m.nodes.map BKNode.word
  | .nil => rfl
  | .cons k c rest => by
    simp only [BKMap.words, BKMap.nodes, List.map_append, BKNode.words_eq_map_nodes c,
      BKMap.words_eq_map_below rest]
end

mutual
theorem BKNode.count_eq_length : ∀ n : BKNode, n.count = n.words.length
  | .mk w cc ch => by
    simp only [BKNode.words, BKNode.count, List.length_cons, BKMap.count_eq_words_length ch]
theorem BKMap.count_eq_words_length : ∀ m : BKMap, m.count = m.words.length
  | .nil => rfl
  | .cons k c rest => by
    simp only [BKMap.words, BKMap.count, List.length_append, BKNode.count_eq_length c,
      BKMap.count_eq_words_length rest]
end

mutual
theorem BKNode.inv_of_mem_nodes (dist : String → String → Int) :
    ∀ n : BKNode, n.Inv dist → ∀ p ∈ n.nodes, p.Inv dist
  | .mk w cc ch, hinv, p, hp => by
    simp only [BKNode.nodes, List.mem_cons] at hp
    rcases hp with hp | hp
    · subst hp; exact hinv
    · simp only [BKNode.Inv] at hinv
      exact BKMap.inv_of_mem_below dist ch w hinv.2 p hp
theorem BKMap.inv_of_mem_below (dist : String → String → Int) :
    ∀ (m : BKMap) (w : String), BKMap.Inv dist m w → ∀ p ∈ m.nodes, p.Inv dist
  | .nil, _, _, p, hp => by simp [BKMap.nodes] at hp
  | .cons k c rest, w, hinv, p, hp => by
    simp only [BKMap.Inv] at hinv
    simp only [BKMap.nodes, List.mem_append] at hp
    rcases hp with hp | hp
    · exact BKNode.inv_of_mem_nodes dist c hinv.2.1 p hp
    · exact BKMap.inv_of_mem_below dist rest w hinv.2.2.2 p hp
end

/-! ## GetParent -/

theorem BKNode.word_mem_words (n : BKNode) : n.word ∈ n.words := by
  cases n with
  | mk w cc ch => simp [BKNode.word, BKNode.words]

theorem BKNode.self_mem_nodes (n : BKNode) : n ∈ n.nodes := by
  cases n with
  | mk w cc ch => simp [BKNode.nodes]

theorem BKNode.getParent_mk (dist : String → String → Int) (w : String) (cc : Int) (ch : BKMap)
    (word : String) :
    (BKNode.mk w cc ch).getParent dist word =
      match ch.get (dist w word) with
      | some c =>
        if c.word = word then (some (.mk w cc ch), none) else c.getParent dist word
      | none => (none, some "word not found") := by
  simp only [BKNode.getParent, BKMap.getParentAt_eq]
  cases h : ch.get (dist w word) <;> simp

theorem BKNode.updateParent_mk (dist : String → String → Int) (f : BKNode → BKNode)
    (w : String) (cc : Int) (ch : BKMap) (word : String) :
    (BKNode.mk w cc ch).updateParent dist f word =
      match ch.get (dist w word) with
      | some c =>
        if c.word = word then f (.mk w cc ch)
        else .mk w cc (ch.replace (dist w word) (c.updateParent dist f word))
      | none => .mk w cc ch := by
  simp only [BKNode.updateParent, BKMap.updateParentAt_eq]
  cases h : ch.get (dist w word) <;> simp

theorem BKNode.getParent_hit (dist : String → String → Int) {w : String} {cc : Int}
    {ch : BKMap} {word : String} {c : BKNode} (hg : ch.get (dist w word) = some c)
    (hc : c.word = word) :
    (BKNode.mk w cc ch).getParent dist word = (some (.mk w cc ch), none) := by
  rw [BKNode.getParent_mk, hg]; simp only [hc, if_true]

theorem BKNode.getParent_step (dist : String → String → Int) {w : String} {cc : Int}
    {ch : BKMap} {word : String} {c : BKNode} (hg : ch.get (dist w word) = some c)
    (hc : ¬ c.word = word) :
    (BKNode.mk w cc ch).getParent dist word = c.getParent dist word := by
  rw [BKNode.getParent_mk, hg]; simp only [hc, if_false]

theorem BKNode.updateParent_hit (dist : String → String → Int) (f : BKNode → BKNode)
    {w : String} {cc : Int} {ch : BKMap} {word : String} {c : BKNode}
    (hg : ch.get (dist w word) = some c) (hc : c.word = word) :
    (BKNode.mk w cc ch).updateParent dist f word = f (.mk w cc ch) := by
  rw [BKNode.updateParent_mk, hg]; simp only [hc, if_true]

theorem BKNode.updateParent_step (dist : String → String → Int) (f : BKNode → BKNode)
    {w : String} {cc : Int} {ch : BKMap} {word : String} {c : BKNode}
    (hg : ch.get (dist w word) = some c) (hc : ¬ c.word = word) :
    (BKNode.mk w cc ch).updateParent dist f word =
      .mk w cc (ch.replace (dist w word) (c.updateParent dist f word)) := by
  rw [BKNode.updateParent_mk, hg]; simp only [hc, if_false]

/-- A word that is not stored below `n` has no parent below `n`. -/
theorem BKNode.getParent_absent (dist : String → String → Int) (n : BKNode) (word : String) :
    n.Inv dist → word ∉ n.words → n.getParent dist word = (none, some "word not found") := by
  induction n using BKNode.induct with
  | h w cc ch ih =>
    intro hinv hmem
    simp only [BKNode.Inv] at hinv
    simp only [BKNode.words, List.mem_cons, not_or] at hmem
    rw [BKNode.getParent_mk]
    cases hg : ch.get (dist w word) with
    | none => rfl
    | some c =>
      obtain ⟨h1, -, h3, -⟩ := BKMap.get_spec hinv.2 hg
      have hc : word ∉ c.words := fun h => hmem.2 (h3.symm.subset (List.mem_append_left _ h))
      have hne : ¬ c.word = word := fun h => hc (h ▸ c.word_mem_words)
      simp only [hne, if_false]
      exact ih _ c hg h1 hc

theorem BKNode.detach (dist : String → String → Int) (n : BKNode) (word : String) :
    n.Inv dist → word ∈ n.words → word ≠ n.word → ∃ p x, BKNode.Detached dist n word p x := by
  induction n using BKNode.induct with
  | h w cc ch ih =>
    intro hinv hmem hne
    simp only [BKNode.Inv] at hinv
    simp only [BKNode.words, List.mem_cons, BKNode.word] at hmem hne
    have hmem' : word ∈ ch.words := hmem.resolve_left hne
    obtain ⟨c, hg, hc⟩ := BKMap.get_of_word_mem hinv.2 hmem'
    obtain ⟨h1, h2, h3, h4, h5, h6⟩ := BKMap.get_spec hinv.2 hg
    by_cases hcw : c.word = word
    · refine ⟨.mk w cc ch, c, BKNode.getParent_hit dist hg hcw, BKNode.self_mem_nodes _, hg, hcw,
        h1, ?_, ?_, ?_, ?_⟩
      · rw [BKNode.updateParent_hit dist _ hg hcw]
        simp only [BKNode.word, BKNode.dropChild, BKNode.childrenCount, BKNode.child, BKNode.Inv]
        exact ⟨by rw [hinv.1, h6]; push_cast; ring, BKMap.inv_erase _ hinv.2⟩
      · rw [BKNode.updateParent_hit dist _ hg hcw]
        simp only [BKNode.word, BKNode.dropChild, BKNode.childrenCount, BKNode.child,
          BKNode.words]
        rw [← Multiset.coe_eq_coe] at h3 ⊢
        simp only [← Multiset.cons_coe, ← Multiset.coe_add, ← Multiset.singleton_add] at h3 ⊢
        rw [h3]; abel
      · rw [BKNode.updateParent_hit dist _ hg hcw]
        simp only [BKNode.word, BKNode.dropChild]
      · rw [BKNode.updateParent_hit dist _ hg hcw]
        simp only [BKNode.word, BKNode.dropChild, BKNode.childrenCount, BKNode.child,
          BKNode.count]
        omega
    · obtain ⟨p, x, hd⟩ := ih _ c hg h1 hc (fun h => hcw h.symm)
      obtain ⟨r1, r2, r3, r4, r5, r6⟩ :=
        BKMap.replace_spec
          (c.updateParent dist (fun q => q.dropChild (dist p.word word)) word) hinv.2 hg
      refine ⟨p, x, ?_, ?_, hd.get, hd.wordx, hd.invx, ?_, ?_, ?_, ?_⟩
      · rw [BKNode.getParent_step dist hg hcw]; exact hd.found
      · simp only [BKNode.nodes, List.mem_cons]
        exact Or.inr (h4.symm.subset (List.mem_append_left _ hd.mem))
      · rw [BKNode.updateParent_step dist _ hg hcw]
        simp only [BKNode.Inv, r5]
        refine ⟨hinv.1, r1 hd.inv ?_⟩
        intro y hy
        exact h2 y (hd.words.symm.subset (List.mem_append_right _ hy))
      · rw [BKNode.updateParent_step dist _ hg hcw]
        simp only [BKNode.words]
        have hw := hd.words
        rw [← Multiset.coe_eq_coe] at h3 r2 hw ⊢
        simp only [← Multiset.cons_coe, ← Multiset.coe_add, ← Multiset.singleton_add]
          at h3 r2 hw ⊢
        rw [h3, r2, hw]; abel
      · rw [BKNode.updateParent_step dist _ hg hcw]
        simp only [BKNode.word]
      · rw [BKNode.updateParent_step dist _ hg hcw]
        simp only [BKNode.count, r4]
        have := hd.count
        omega

/-! ## collectFamily -/

theorem BKMap.inv_keys_nodup {dist : String → String → Int} {m : BKMap} {w : String}
    (hinv : BKMap.Inv dist m w) : m.keys.Nodup := by
  induction m with
  | nil => simp [BKMap.keys]
  | cons k c rest ih =>
    simp only [BKMap.Inv] at hinv
    simp only [BKMap.keys, List.nodup_cons]
    exact ⟨hinv.2.2.1, ih hinv.2.2.2⟩

/-- Visiting the keys of a map in stored order collects the nodes in stored order. -/
theorem BKMap.collect_keys (ord : BKNode → List Int) (m : BKMap) (hk : m.keys.Nodup)
    (h : ∀ i c, m.get i = some c → (c.collectFamily ord).Perm c.nodes) :
    ((m.keys.map (fun i => BKMap.collectAt ord m i)).flatten).Perm m.nodes := by
  induction m with
  | nil => simp [BKMap.keys, BKMap.nodes]
  | cons k c rest ih =>
    simp only [BKMap.keys, List.nodup_cons] at hk
    have hrest : rest.keys.map (fun i => BKMap.collectAt ord (.cons k c rest) i) =
        rest.keys.map (fun i => BKMap.collectAt ord rest i) := by
      apply List.map_congr_left
      intro i hi
      have hne : ¬ k = i := fun e => hk.1 (e ▸ hi)
      simp only [BKMap.collectAt, hne, if_false]
    simp only [BKMap.keys, List.map_cons, List.flatten_cons, BKMap.nodes, hrest]
    refine List.Perm.append ?_ (ih hk.2 ?_)
    · simp only [BKMap.collectAt, if_true]
      exact h k c (by simp [BKMap.get])
    · intro i c' hc'
      have hne : ¬ k = i := fun e => hk.1 (e ▸ BKMap.mem_keys_of_get hc')
      exact h i c' (by simp [BKMap.get, hne, hc'])

theorem BKNode.collectFamily_head (ord : BKNode → List Int) (n : BKNode) :
    n.collectFamily ord = n :: (n.collectFamily ord).tail := by
  cases n with
  | mk w cc ch => simp [BKNode.collectFamily]

/-- Whatever the enumeration order, `collectFamily` returns every node of the subtree
once. -/
theorem BKNode.collectFamily_perm (dist : String → String → Int) (ord : BKNode → List Int)
    (hord : IterOrder ord) (n : BKNode) :
    n.Inv dist → (n.collectFamily ord).Perm n.nodes := by
  induction n using BKNode.induct with
  | h w cc ch ih =>
    intro hinv
    simp only [BKNode.Inv] at hinv
    simp only [BKNode.collectFamily, BKNode.nodes, List.perm_cons]
    have h1 : (ord (.mk w cc ch)).Perm ch.keys := hord (.mk w cc ch)
    refine ((h1.map _).flatten).trans (BKMap.collect_keys ord ch (BKMap.inv_keys_nodup hinv.2) ?_)
    intro i c hc
    exact ih i c hc (BKMap.get_spec hinv.2 hc).1

theorem BKNode.collectFamily_tail (dist : String → String → Int) (ord : BKNode → List Int)
    (hord : IterOrder ord) (n : BKNode) (hinv : n.Inv dist) :
    ((n.collectFamily ord).tail.map BKNode.word).Perm n.child.words := by
  have h := BKNode.collectFamily_perm dist ord hord n hinv
  rw [BKNode.collectFamily_head] at h
  cases n with
  | mk w cc ch =>
    simp only [BKNode.nodes, List.perm_cons] at h
    simp only [BKNode.child, BKMap.words_eq_map_below]
    exact h.map _

/-! ## Insert on a tree -/

theorem BKDelTree.Insert_dup (dist : String → String → Int) (t : BKDelTree) (word : String)
    (hinv : t.Inv dist) (hmem : word ∈ t.words) :
    t.Insert dist word = (t, some "word already exists") := by
  cases t with
  | mk root numNodes =>
    cases root with
    | none => simp [BKDelTree.words] at hmem
    | some r =>
      simp only [BKDelTree.words] at hmem
      simp only [BKDelTree.Inv] at hinv
      simp only [BKDelTree.Insert, BKNode.insert_dup dist r word hinv.1 hmem]

theorem BKDelTree.Insert_some (dist : String → String → Int) (r : BKNode) (k : Int)
    (word : String) (hinv : r.Inv dist) (hmem : word ∉ r.words) :
    BKDelTree.Insert dist { root := some r, numNodes := k } word =
      ({ root := some (r.insert dist word).1, numNodes := k + 1 }, none) := by
  simp only [BKDelTree.Insert, (BKNode.insert_new dist r word hinv hmem).err]

theorem BKDelTree.Insert_new (dist : String → String → Int) (t : BKDelTree) (word : String)
    (hinv : t.Inv dist) (hmem : word ∉ t.words) :
    (t.Insert dist word).2 = none ∧ (t.Insert dist word).1.Inv dist ∧
      (t.Insert dist word).1.words.Perm (word :: t.words) ∧
      (t.Insert dist word).1.numNodes = t.numNodes + 1 := by
  cases t with
  | mk root numNodes =>
    cases root with
    | none =>
      simp only [BKDelTree.Inv] at hinv
      simp only [BKDelTree.Insert, BKDelTree.Inv, BKDelTree.words, newBKNode, BKNode.words,
        BKMap.words, BKNode.Inv, BKMap.Inv, BKMap.size, BKNode.count, BKMap.count, hinv]
      simp
    | some r =>
      simp only [BKDelTree.words] at hmem
      simp only [BKDelTree.Inv] at hinv
      have h := BKNode.insert_new dist r word hinv.1 hmem
      rw [BKDelTree.Insert_some dist r numNodes word hinv.1 hmem]
      simp only [BKDelTree.Inv, BKDelTree.words]
      refine ⟨trivial, ⟨h.inv, ?_⟩, h.words, trivial⟩
      rw [h.count, hinv.2]; push_cast; ring

theorem BKDelTree.Insert_inv (dist : String → String → Int) (t : BKDelTree) (word : String)
    (hinv : t.Inv dist) : (t.Insert dist word).1.Inv dist := by
  by_cases h : word ∈ t.words
  · rw [BKDelTree.Insert_dup dist t word hinv h]; exact hinv
  · exact (BKDelTree.Insert_new dist t word hinv h).2.1

/-! ## The reinsertion loops -/

theorem reinsertAll_spec (dist : String → String → Int) (subs : List BKNode) :
    ∀ (r : BKNode) (k : Int), r.Inv dist → (subs.map BKNode.word).Nodup →
      (∀ s ∈ subs, s.word ∉ r.words) →
      ∃ r', reinsertAll dist { root := some r, numNodes := k } subs =
          { root := some r', numNodes := k } ∧
        r'.Inv dist ∧ r'.words.Perm (subs.map BKNode.word ++ r.words) ∧ r'.word = r.word ∧
        r'.count = r.count + subs.length := by
  induction subs with
  | nil =>
    intro r k hinv _ _
    exact ⟨r, rfl, hinv, by simp, rfl, rfl⟩
  | cons s subs ih =>
    intro r k hinv hnd hdis
    simp only [List.map_cons, List.nodup_cons] at hnd
    have hs : s.word ∉ r.words := hdis s (List.mem_cons_self _ _)
    have h := BKNode.insert_new dist r s.word hinv hs
    have hstep : reinsertAll dist { root := some r, numNodes := k } (s :: subs) =
        reinsertAll dist { root := some (r.insert dist s.word).1, numNodes := k } subs := by
      simp only [reinsertAll, List.foldl_cons, BKDelTree.Insert_some dist r (k - 1) s.word hinv hs]
      simp
    obtain ⟨r', e, hi, hp, hw, hc⟩ := ih (r.insert dist s.word).1 k h.inv hnd.2 (by
      intro s' hs' hmem
      rcases List.mem_cons.1 (h.words.subset hmem) with e | e
      · exact hnd.1 (e ▸ List.mem_map_of_mem _ hs')
      · exact hdis s' (List.mem_cons_of_mem _ hs') e)
    refine ⟨r', hstep.trans e, hi, ?_, hw.trans h.word, ?_⟩
    · have hw' := h.words
      rw [← Multiset.coe_eq_coe] at hp hw' ⊢
      simp only [List.map_cons, ← Multiset.cons_coe, ← Multiset.coe_add,
        ← Multiset.singleton_add] at hp hw' ⊢
      rw [hp, hw']; abel
    · rw [hc, h.count, List.length_cons]; omega

theorem foldl_Insert_spec (dist : String → String → Int) (subs : List BKNode) :
    ∀ t : BKDelTree, t.Inv dist → (subs.map BKNode.word).Nodup →
      (∀ s ∈ subs, s.word ∉ t.words) →
      (subs.foldl (fun nt sub => (BKDelTree.Insert dist nt sub.word).1) t).Inv dist ∧
      (subs.foldl (fun nt sub => (BKDelTree.Insert dist nt sub.word).1) t).words.Perm
        (subs.map BKNode.word ++ t.words) := by
  induction subs with
  | nil =>
    intro t hinv _ _
    exact ⟨hinv, by simp⟩
  | cons s subs ih =>
    intro t hinv hnd hdis
    simp only [List.map_cons, List.nodup_cons] at hnd
    have hs : s.word ∉ t.words := hdis s (List.mem_cons_self _ _)
    obtain ⟨-, h2, h3, -⟩ := BKDelTree.Insert_new dist t s.word hinv hs
    obtain ⟨hi, hp⟩ := ih (t.Insert dist s.word).1 h2 hnd.2 (by
      intro s' hs' hmem
      rcases List.mem_cons.1 (h3.subset hmem) with e | e
      · exact hnd.1 (e ▸ List.mem_map_of_mem _ hs')
      · exact hdis s' (List.mem_cons_of_mem _ hs') e)
    refine ⟨hi, ?_⟩
    simp only [List.foldl_cons]
    rw [← Multiset.coe_eq_coe] at hp h3 ⊢
    simp only [List.map_cons, ← Multiset.cons_coe, ← Multiset.coe_add,
      ← Multiset.singleton_add] at hp h3 ⊢
    rw [hp, h3]; abel

theorem rebuild_spec (dist : String → String → Int) (subs : List BKNode)
    (hnd : (subs.map BKNode.word).Nodup) :
    (rebuild dist subs).Inv dist ∧ (rebuild dist subs).words.Perm (subs.map BKNode.word) := by
  have h := foldl_Insert_spec dist subs NewBKDelTree (by simp [BKDelTree.Inv, NewBKDelTree]) hnd
    (by simp [BKDelTree.words, NewBKDelTree])
  simpa [rebuild, BKDelTree.words, NewBKDelTree] using h

/-! ## Delete -/

theorem BKDelTree.Delete_empty (dist : String → String → Int) (ord : BKNode → List Int)
    (t : BKDelTree) (word : String) (h : t.root = none) : t.Delete dist ord word = (t, none) := by
  simp only [BKDelTree.Delete, h]

theorem BKDelTree.GetParent_absent (dist : String → String → Int) (t : BKDelTree) (r : BKNode)
    (word : String) (hr : t.root = some r) (hinv : t.Inv dist) (hmem : word ∉ t.words) :
    t.GetParent dist word = (none, some "word not found") := by
  simp only [BKDelTree.Inv, hr] at hinv
  simp only [BKDelTree.words, hr] at hmem
  have hne : ¬ r.word = word := fun h => hmem (h ▸ r.word_mem_words)
  simp only [BKDelTree.GetParent, hr, hne, if_false]
  exact BKNode.getParent_absent dist r word hinv.1 hmem

theorem BKDelTree.Delete_absent (dist : String → String → Int) (ord : BKNode → List Int)
    (t : BKDelTree) (r : BKNode) (word : String) (hr : t.root = some r) (hinv : t.Inv dist)
    (hmem : word ∉ t.words) :
    t.Delete dist ord word = (t, some ("word not found: " ++ word)) := by
  simp only [BKDelTree.Delete, hr, BKDelTree.GetParent_absent dist t r word hr hinv hmem]

theorem BKDelTree.Delete_root (dist : String → String → Int) (ord : BKNode → List Int)
    (t : BKDelTree) (r : BKNode) (hr : t.root = some r) :
    t.Delete dist ord r.word =
      ({ root := (rebuild dist (r.collectFamily ord).tail).root,
         numNodes := (rebuild dist (r.collectFamily ord).tail).numNodes }, none) := by
  simp only [BKDelTree.Delete, hr, BKDelTree.GetParent, if_true]

theorem BKDelTree.Delete_inner (dist : String → String → Int) (ord : BKNode → List Int)
    (t : BKDelTree) (r p x : BKNode) (word : String) (hr : t.root = some r)
    (hne : word ≠ r.word) (hd : BKNode.Detached dist r word p x) :
    t.Delete dist ord word =
      (reinsertAll dist
        { root := some (r.updateParent dist (fun q => q.dropChild (dist p.word word)) word),
          numNodes := t.numNodes - 1 }
        (x.collectFamily ord).tail, none) := by
  have hne' : ¬ r.word = word := fun h => hne h.symm
  simp only [BKDelTree.Delete, hr, BKDelTree.GetParent, hne', if_false, hd.found,
    BKNode.deleteChild, hd.get, hd.wordx, if_true]

/-- What `Delete` does with a stored word. -/
theorem BKDelTree.Delete_stored (dist : String → String → Int) (ord : BKNode → List Int)
    (hord : IterOrder ord) (t : BKDelTree) (word : String) (hinv : t.Inv dist)
    (hmem : word ∈ t.words) :
    (t.Delete dist ord word).2 = none ∧ (t.Delete dist ord word).1.Inv dist ∧
      t.words.Perm (word :: (t.Delete dist ord word).1.words) ∧
      (t.Delete dist ord word).1.numNodes = t.numNodes - 1 := by
  cases hr : t.root with
  | none => simp [BKDelTree.words, hr] at hmem
  | some r =>
    simp only [BKDelTree.words, hr] at hmem
    have hinv' := hinv
    simp only [BKDelTree.Inv, hr] at hinv'
    have hnd := BKNode.inv_nodup dist r hinv'.1
    have hwords : t.words = r.words := by simp only [BKDelTree.words, hr]
    by_cases hw : word = r.word
    · subst hw
      rw [BKDelTree.Delete_root dist ord t r hr]
      have htail := BKNode.collectFamily_tail dist ord hord r hinv'.1
      have hrw : r.words = r.word :: r.child.words := by
        cases r with
        | mk w cc ch => rfl
      rw [hrw, List.nodup_cons] at hnd
      obtain ⟨h1, h2⟩ := rebuild_spec dist (r.collectFamily ord).tail (htail.nodup_iff.2 hnd.2)
      have hperm : t.words.Perm (r.word :: (rebuild dist (r.collectFamily ord).tail).words) := by
        rw [hwords, hrw]
        exact List.Perm.cons _ (h2.trans htail).symm
      refine ⟨rfl, h1, hperm, ?_⟩
      have hlen := hperm.length_eq
      simp only [BKDelTree.Inv, hr] at hinv
      have hc : (rebuild dist (r.collectFamily ord).tail).numNodes =
          ((rebuild dist (r.collectFamily ord).tail).words.length : Int) := by
        have h1' := h1
        unfold BKDelTree.Inv at h1'
        unfold BKDelTree.words
        cases hroot : (rebuild dist (r.collectFamily ord).tail).root with
        | none => simp only [hroot] at h1' ⊢; simpa using h1'
        | some r2 =>
          simp only [hroot] at h1' ⊢
          rw [h1'.2, BKNode.count_eq_length]
      simp only [hc, hinv.2, BKNode.count_eq_length, ← hwords]
      rw [hlen, List.length_cons]; push_cast; ring
    · obtain ⟨p, x, hd⟩ := BKNode.detach dist r word hinv'.1 hmem hw
      rw [BKDelTree.Delete_inner dist ord t r p x word hr hw hd]
      have htail := BKNode.collectFamily_tail dist ord hord x hd.invx
      have hxw : x.words = word :: x.child.words := by
        have := hd.wordx
        cases x with
        | mk w cc ch => subst this; rfl
      have hnd2 := hd.words.nodup_iff.1 hnd
      rw [hxw] at hnd2
      have hndx : x.child.words.Nodup :=
        (List.nodup_cons.1 (List.Nodup.of_append_left hnd2)).2
      obtain ⟨r', e, hi, hp, -, hc⟩ := reinsertAll_spec dist (x.collectFamily ord).tail
        (r.updateParent dist (fun q => q.dropChild (dist p.word word)) word) (t.numNodes - 1)
        hd.inv (htail.nodup_iff.2 hndx) (by
          intro s hs hmem'
          have h1 : s.word ∈ x.child.words := htail.subset (List.mem_map_of_mem _ hs)
          exact (List.disjoint_of_nodup_append hnd2) (List.mem_cons_of_mem _ h1) hmem')
      rw [e]
      have hperm : r.words.Perm (word :: r'.words) := by
        have hw1 := hd.words
        rw [hxw] at hw1
        rw [← Multiset.coe_eq_coe] at hw1 hp htail ⊢
        simp only [← Multiset.cons_coe, ← Multiset.coe_add, ← Multiset.singleton_add]
          at hw1 hp htail ⊢
        rw [hw1, hp, htail]; abel
      refine ⟨rfl, ?_, ?_, rfl⟩
      · simp only [BKDelTree.Inv]
        refine ⟨hi, ?_⟩
        have hlen := hperm.length_eq
        rw [hinv'.2, BKNode.count_eq_length, BKNode.count_eq_length, hlen, List.length_cons]
        push_cast; ring
      · simpa only [BKDelTree.words, hr] using hperm

theorem BKDelTree.Delete_inv (dist : String → String → Int) (ord : BKNode → List Int)
    (hord : IterOrder ord) (t : BKDelTree) (word : String) (hinv : t.Inv dist) :
    (t.Delete dist ord word).1.Inv dist := by
  by_cases h : word ∈ t.words
  · exact (BKDelTree.Delete_stored dist ord hord t word hinv h).2.1
  · cases hr : t.root with
    | none => rw [BKDelTree.Delete_empty dist ord t word hr]; exact hinv
    | some r => rw [BKDelTree.Delete_absent dist ord t r word hr hinv h]; exact hinv

/-- Every reachable tree is well formed. -/
theorem Reachable.inv {dist : String → String → Int} {t : BKDelTree} (h : Reachable dist t) :
    t.Inv dist := by
  induction h with
  | new => simp [BKDelTree.Inv, NewBKDelTree]
  | insert t w _ ih => exact BKDelTree.Insert_inv dist t w ih
  | delete t w ord _ hord ih => exact BKDelTree.Delete_inv dist ord hord t w ih

/-! ## Search -/

theorem mem_intRange (lo hi i : Int) : i ∈ intRange lo hi ↔ lo ≤ i ∧ i ≤ hi := by
  simp only [intRange, List.mem_map, List.mem_range]
  constructor
  · rintro ⟨k, hk, rfl⟩
    simp only [Int.ofNat_eq_coe]
    omega
  · intro h
    refine ⟨(i - lo).toNat, by omega, ?_⟩
    simp only [Int.ofNat_eq_coe]
    omega

theorem nodup_intRange (lo hi : Int) : (intRange lo hi).Nodup := by
  refine List.Nodup.map ?_ (List.nodup_range _)
  intro a b h
  simp only [Int.ofNat_eq_coe] at h
  omega

theorem BKNode.search_mk (dist : String → String → Int) (w : String) (cc : Int) (ch : BKMap)
    (word : String) (maxDist : Int) (results : List BKNode) :
    (BKNode.mk w cc ch).search dist word maxDist results =
      (intRange (subInt (dist w word) maxDist) (addInt (dist w word) maxDist)).foldl
        (fun res i =>
          match ch.get i with
          | some c => c.search dist word maxDist res
          | none => res)
        (if dist w word ≤ maxDist then results ++ [.mk w cc ch] else results) := by
  simp only [BKNode.search, BKMap.searchAt_eq]

theorem foldl_append_hom {α β : Type} (f : List β → α → List β)
    (hf : ∀ res a, f res a = res ++ f [] a) (l : List α) (init : List β) :
    l.foldl f init = init ++ l.flatMap (f []) := by
  induction l generalizing init with
  | nil => simp
  | cons a l ih => rw [List.foldl_cons, ih, hf init a]; simp

/-- The nodes `search` appends do not depend on the results collected so far. -/
theorem BKNode.search_append (dist : String → String → Int) (word : String) (maxDist : Int)
    (n : BKNode) : ∀ results, n.search dist word maxDist results =
      results ++ n.search dist word maxDist [] := by
  induction n using BKNode.induct with
  | h w cc ch ih =>
    intro results
    have hf : ∀ (res : List BKNode) (i : Int),
        (match ch.get i with
          | some c => c.search dist word maxDist res
          | none => res) =
        res ++ (match ch.get i with
          | some c => c.search dist word maxDist []
          | none => []) := by
      intro res i
      cases hg : ch.get i with
      | none => simp
      | some c => exact ih i c hg res
    rw [BKNode.search_mk, BKNode.search_mk, foldl_append_hom _ hf, foldl_append_hom _ hf]
    by_cases hd : dist w word ≤ maxDist <;> simp [hd]

theorem BKMap.searchAt_cons_ne (dist : String → String → Int) {k i : Int} (c : BKNode)
    (rest : BKMap) (word : String) (maxDist : Int) (res : List BKNode) (h : ¬ k = i) :
    BKMap.searchAt dist (.cons k c rest) i word maxDist res =
      BKMap.searchAt dist rest i word maxDist res := by
  simp only [BKMap.searchAt, h, if_false]

/-- The loop of `search` over a duplicate-free list of keys that covers every entry
holding a match returns the matches below the map. -/
theorem BKMap.search_keys (dist : String → String → Int) (word : String) (maxDist : Int)
    (m : BKMap) (w : String) (hinv : BKMap.Inv dist m w) :
    ∀ keys : List Int, keys.Nodup →
      (∀ x ∈ m.words, dist x word ≤ maxDist → dist w x ∈ keys) →
      (∀ i c, m.get i = some c → ((c.search dist word maxDist []).map BKNode.word).Perm
        (c.words.filter (fun x => decide (dist x word ≤ maxDist)))) →
      ((keys.flatMap (fun i => BKMap.searchAt dist m i word maxDist [])).map BKNode.word).Perm
        (m.words.filter (fun x => decide (dist x word ≤ maxDist))) := by
  induction m with
  | nil =>
    intro keys _ _ _
    simp [BKMap.searchAt, BKMap.words]
  | cons k c rest ih =>
    intro keys hnd hcov hch
    simp only [BKMap.Inv] at hinv
    have hrest : ∀ i c', rest.get i = some c' →
        ((c'.search dist word maxDist []).map BKNode.word).Perm
          (c'.words.filter (fun x => decide (dist x word ≤ maxDist))) := by
      intro i c' hc'
      have hne : ¬ k = i := fun e => hinv.2.2.1 (e ▸ BKMap.mem_keys_of_get hc')
      exact hch i c' (by simp [BKMap.get, hne, hc'])
    simp only [BKMap.words, List.filter_append]
    by_cases hk : k ∈ keys
    · have hp : keys.Perm (k :: keys.erase k) := List.perm_cons_erase hk
      have hnd' : (k :: keys.erase k).Nodup := hp.nodup_iff.1 hnd
      rw [List.nodup_cons] at hnd'
      have h1 : (keys.erase k).flatMap
            (fun i => BKMap.searchAt dist (.cons k c rest) i word maxDist []) =
          (keys.erase k).flatMap (fun i => BKMap.searchAt dist rest i word maxDist []) := by
        apply List.flatMap_congr
        intro i hi
        exact BKMap.searchAt_cons_ne dist c rest word maxDist [] (fun e => hnd'.1 (e ▸ hi))
      refine ((hp.flatMap_right _).map _).trans ?_
      rw [List.flatMap_cons, h1, List.map_append]
      refine List.Perm.append ?_ (ih hinv.2.2.2 (keys.erase k) hnd'.2 ?_ hrest)
      · simp only [BKMap.searchAt, if_true]
        exact hch k c (by simp [BKMap.get])
      · intro x hx hdx
        have hmem := hcov x (by simp [BKMap.words, hx]) hdx
        have hne : dist w x ≠ k :=
          fun e => hinv.2.2.1 (e ▸ (BKMap.key_mem_of_word_mem hinv.2.2.2 hx).1)
        exact (List.mem_erase_of_ne hne).2 hmem
    · have h1 : keys.flatMap
            (fun i => BKMap.searchAt dist (.cons k c rest) i word maxDist []) =
          keys.flatMap (fun i => BKMap.searchAt dist rest i word maxDist []) := by
        apply List.flatMap_congr
        intro i hi
        exact BKMap.searchAt_cons_ne dist c rest word maxDist [] (fun e => hk (e ▸ hi))
      have h2 : c.words.filter (fun x => decide (dist x word ≤ maxDist)) = [] := by
        rw [List.filter_eq_nil_iff]
        intro x hx hdx
        have hmem := hcov x (by simp [BKMap.words, hx]) (by simpa using hdx)
        exact hk ((hinv.1 x hx).1 ▸ hmem)
      rw [h1, h2, List.nil_append]
      refine ih hinv.2.2.2 keys hnd ?_ hrest
      intro x hx hdx
      exact hcov x (by simp [BKMap.words, hx]) hdx

/-- Soundness and completeness of `search` on a well-formed subtree, for a radius whose
window, from the Go int `d - maxDist` to the Go int `d + maxDist`, covers every match at
every stored word. -/
theorem BKNode.search_spec (dist : String → String → Int) (word : String) (maxDist : Int)
    (n : BKNode) : n.Inv dist →
      (∀ a ∈ n.words, ∀ x ∈ n.words, dist x word ≤ maxDist →
        subInt (dist a word) maxDist ≤ dist a x ∧ dist a x ≤ addInt (dist a word) maxDist) →
      ((n.search dist word maxDist []).map BKNode.word).Perm
        (n.words.filter (fun x => decide (dist x word ≤ maxDist))) := by
  induction n using BKNode.induct with
  | h w cc ch ih =>
    intro hinv hcover
    simp only [BKNode.Inv] at hinv
    have hf : ∀ (res : List BKNode) (i : Int),
        BKMap.searchAt dist ch i word maxDist res =
          res ++ BKMap.searchAt dist ch i word maxDist [] := by
      intro res i
      rw [BKMap.searchAt_eq, BKMap.searchAt_eq]
      cases hg : ch.get i with
      | none => simp
      | some c => exact BKNode.search_append dist word maxDist c res
    have hsub : ∀ i c, ch.get i = some c → ∀ a ∈ c.words, a ∈ (BKNode.mk w cc ch).words := by
      intro i c hc a ha
      simp only [BKNode.words, List.mem_cons]
      exact Or.inr ((BKMap.get_spec hinv.2 hc).2.2.1.symm.subset (List.mem_append_left _ ha))
    have hkeys := BKMap.search_keys dist word maxDist ch w hinv.2
      (intRange (subInt (dist w word) maxDist) (addInt (dist w word) maxDist))
      (nodup_intRange _ _)
      (fun x hx hdx => (mem_intRange _ _ _).2
        (hcover w (by simp [BKNode.words]) x (by simp [BKNode.words, hx]) hdx))
      (fun i c hc => ih i c hc (BKMap.get_spec hinv.2 hc).1
        (fun a ha x hx hdx => hcover a (hsub i c hc a ha) x (hsub i c hc x hx) hdx))
    simp only [BKNode.search, BKNode.words]
    rw [foldl_append_hom _ hf, List.map_append]
    by_cases hd : dist w word ≤ maxDist
    · simp only [hd, if_true, List.nil_append, List.map_cons, List.map_nil, List.filter_cons,
        decide_True, List.singleton_append]
      exact List.Perm.cons _ hkeys
    · simp only [hd, if_false, List.map_nil, List.nil_append, List.filter_cons, decide_False]
      exact hkeys

/-! ## Search on a tree -/

theorem BKDelTree.Search_spec (dist : String → String → Int) (word : String) (maxDist : Int)
    (t : BKDelTree) (hinv : t.Inv dist)
    (hcover : ∀ a ∈ t.words, ∀ x ∈ t.words, dist x word ≤ maxDist →
      subInt (dist a word) maxDist ≤ dist a x ∧ dist a x ≤ addInt (dist a word) maxDist) :
    ((t.Search dist word maxDist).map BKNode.word).Perm
      (t.words.filter (fun x => decide (dist x word ≤ maxDist))) := by
  cases hr : t.root with
  | none => simp [BKDelTree.Search, BKDelTree.words, hr]
  | some r =>
    simp only [BKDelTree.Inv, hr] at hinv
    simp only [BKDelTree.words, hr] at hcover
    simp only [BKDelTree.Search, BKDelTree.words, hr]
    exact BKNode.search_spec dist word maxDist r hinv.1 hcover

theorem BKDelTree.words_nodup (dist : String → String → Int) (t : BKDelTree)
    (hinv : t.Inv dist) : t.words.Nodup := by
  cases hr : t.root with
  | none => simp [BKDelTree.words, hr]
  | some r =>
    simp only [BKDelTree.Inv, hr] at hinv
    simp only [BKDelTree.words, hr]
    exact BKNode.inv_nodup dist r hinv.1

theorem addInt_zero (x : Int) : addInt x 0 = x := by
  simp only [addInt, wrapInt, minInt, maxInt]
  split <;> omega

theorem subInt_zero (x : Int) : subInt x 0 = x := by
  simp only [subInt, wrapInt, minInt, maxInt]
  split <;> omega

theorem addInt_of_in_range {x y : Int} (h1 : minInt ≤ x + y) (h2 : x + y ≤ maxInt) :
    addInt x y = x + y := by
  simp only [addInt, wrapInt, minInt, maxInt] at h1 h2 ⊢
  split <;> omega

theorem subInt_of_in_range {x y : Int} (h1 : minInt ≤ x - y) (h2 : x - y ≤ maxInt) :
    subInt x y = x - y := by
  simp only [subInt, wrapInt, minInt, maxInt] at h1 h2 ⊢
  split <;> omega

/-- For a metric and a radius that keeps `dist a word + maxDist` inside the int range,
the window of `search` at a node holding `a` covers every match. -/
theorem IsMetric.cover {dist : String → String → Int} (hm : IsMetric dist) (word : String)
    (maxDist : Int) (h0 : 0 ≤ maxDist) (a : String) (hb : dist a word + maxDist ≤ maxInt)
    (x : String) (h : dist x word ≤ maxDist) :
    subInt (dist a word) maxDist ≤ dist a x ∧ dist a x ≤ addInt (dist a word) maxDist := by
  have h1 := hm.triangle a x word
  have h2 := hm.triangle a word x
  have h3 := hm.symm word x
  have h4 := hm.nonneg a word
  have hmin : minInt = -9223372036854775808 := rfl
  have hmax : maxInt = 9223372036854775807 := rfl
  rw [addInt_of_in_range (by omega) (by omega), subInt_of_in_range (by omega) (by omega)]
  constructor <;> omega

theorem cover_zero {dist : String → String → Int} (hnn : ∀ x y, 0 ≤ dist x y)
    (hid : ∀ x y, dist x y = 0 ↔ x = y) (word : String) (a x : String)
    (h : dist x word ≤ 0) :
    subInt (dist a word) 0 ≤ dist a x ∧ dist a x ≤ addInt (dist a word) 0 := by
  have h1 : x = word := (hid x word).1 (le_antisymm h (hnn x word))
  subst h1
  rw [addInt_zero, subInt_zero]
  constructor <;> omega

/-- On a well-formed tree, `Search(w, 0)` returns the node holding `w` alone when `w` is
stored and nothing otherwise. -/
theorem BKDelTree.Search_zero (dist : String → String → Int) (hnn : ∀ x y, 0 ≤ dist x y)
    (hid : ∀ x y, dist x y = 0 ↔ x = y) (t : BKDelTree) (hinv : t.Inv dist) (w : String) :
    (w ∈ t.words → ∃ n, t.Search dist w 0 = [n] ∧ n.word = w) ∧
      (w ∉ t.words → t.Search dist w 0 = []) := by
  have hp := BKDelTree.Search_spec dist w 0 t hinv
    (fun a _ x _ h => cover_zero hnn hid w a x h)
  have hfil : t.words.filter (fun x => decide (dist x w ≤ 0)) = t.words.filter (fun x => x == w) := by
    apply List.filter_congr
    intro x _
    have h1 : dist x w ≤ 0 ↔ x = w :=
      ⟨fun h => (hid x w).1 (le_antisymm h (hnn x w)), fun h => le_of_eq ((hid x w).2 h)⟩
    by_cases hx : x = w
    · simp [hx, h1.2 hx, hx ▸ h1.2 hx]
    · simp [hx, h1]
  rw [hfil] at hp
  constructor
  · intro hmem
    have hc : (t.words.filter (fun x => x == w)) = [w] := by
      have h1 := List.count_eq_one_of_mem (BKDelTree.words_nodup dist t hinv) hmem
      have h2 : (t.words.filter (fun x => x == w)) = List.replicate (t.words.count w) w := by
        rw [List.filter_beq]
      rw [h2, h1]; rfl
    rw [hc] at hp
    have hlen := hp.length_eq
    simp only [List.length_map, List.length_singleton] at hlen
    obtain ⟨n, hn⟩ := List.length_eq_one.1 hlen
    refine ⟨n, hn, ?_⟩
    rw [hn] at hp
    simpa using hp.subset (List.mem_cons_self _ _)
  · intro hmem
    have hc : (t.words.filter (fun x => x == w)) = [] := by
      rw [List.filter_eq_nil_iff]
      intro x hx hxw
      exact hmem ((beq_iff_eq.1 hxw) ▸ hx)
    rw [hc] at hp
    simpa using hp

/-! ## Facts about reachable trees -/

theorem BKDelTree.numNodes_eq_count (dist : String → String → Int) (t : BKDelTree)
    (hinv : t.Inv dist) : t.numNodes = (t.count : Int) := by
  cases hr : t.root with
  | none => simpa [BKDelTree.Inv, BKDelTree.count, hr] using hinv
  | some r =>
    simp only [BKDelTree.Inv, hr] at hinv
    simp only [BKDelTree.count, hr, hinv.2]

theorem BKDelTree.count_eq_stored (t : BKDelTree) : t.count = t.words.length := by
  cases hr : t.root with
  | none => simp [BKDelTree.count, BKDelTree.words, hr]
  | some r => simp only [BKDelTree.count, BKDelTree.words, hr, BKNode.count_eq_length]

theorem BKDelTree.words_eq_node_words (t : BKDelTree) : t.words = t.nodes.map BKNode.word := by
  cases hr : t.root with
  | none => simp [BKDelTree.nodes, BKDelTree.words, hr]
  | some r => simp only [BKDelTree.nodes, BKDelTree.words, hr, BKNode.words_eq_map_nodes]

theorem BKDelTree.inv_of_node (dist : String → String → Int) (t : BKDelTree)
    (hinv : t.Inv dist) (n : BKNode) (hn : n ∈ t.nodes) : n.Inv dist := by
  cases hr : t.root with
  | none => simp [BKDelTree.nodes, hr] at hn
  | some r =>
    simp only [BKDelTree.Inv, hr] at hinv
    simp only [BKDelTree.nodes, hr] at hn
    exact BKNode.inv_of_mem_nodes dist r hinv.1 n hn

theorem BKMap.entry_dist {dist : String → String → Int} {m : BKMap} {w : String}
    (hinv : BKMap.Inv dist m w) (d : Int) (c : BKNode) (hc : (d, c) ∈ m.entries) :
    dist w c.word = d := by
  induction m with
  | nil => simp [BKMap.entries] at hc
  | cons k c' rest ih =>
    simp only [BKMap.Inv] at hinv
    simp only [BKMap.entries, List.mem_cons, Prod.mk.injEq] at hc
    rcases hc with ⟨hd, hc⟩ | hc
    · subst hd; subst hc
      exact (hinv.1 c.word c.word_mem_words).1
    · exact ih hinv.2.2.2 hc

theorem BKNode.child_dist (dist : String → String → Int) (n : BKNode) (hinv : n.Inv dist)
    (d : Int) (c : BKNode) (hc : (d, c) ∈ n.child.entries) : dist n.word c.word = d := by
  cases n with
  | mk w cc ch =>
    simp only [BKNode.Inv] at hinv
    simp only [BKNode.child] at hc
    exact BKMap.entry_dist hinv.2 d c hc

theorem BKDelTree.Insert_root (dist : String → String → Int) (t : BKDelTree) (r : BKNode)
    (word : String) (hinv : t.Inv dist) (hr : t.root = some r) :
    ∃ r', (t.Insert dist word).1.root = some r' ∧ r'.word = r.word := by
  by_cases h : word ∈ t.words
  · rw [BKDelTree.Insert_dup dist t word hinv h]
    exact ⟨r, hr, rfl⟩
  · cases t with
    | mk root numNodes =>
      simp only at hr
      subst hr
      simp only [BKDelTree.Inv] at hinv
      simp only [BKDelTree.words] at h
      rw [BKDelTree.Insert_some dist r numNodes word hinv.1 h]
      exact ⟨_, rfl, (BKNode.insert_new dist r word hinv.1 h).word⟩

theorem BKDelTree.mem_words_Insert (dist : String → String → Int) (t : BKDelTree)
    (word : String) (hinv : t.Inv dist) (x : String) :
    x ∈ (t.Insert dist word).1.words ↔ x = word ∨ x ∈ t.words := by
  by_cases h : word ∈ t.words
  · rw [BKDelTree.Insert_dup dist t word hinv h]
    constructor
    · exact Or.inr
    · rintro (e | e)
      · exact e ▸ h
      · exact e
  · rw [(BKDelTree.Insert_new dist t word hinv h).2.2.1.mem_iff, List.mem_cons]

/-- Inserting a list of words into a well-formed tree. -/
theorem foldl_Insert_words (dist : String → String → Int) (ws : List String) :
    ∀ t : BKDelTree, t.Inv dist →
      (ws.foldl (fun t w => (BKDelTree.Insert dist t w).1) t).Inv dist ∧
      (∀ x, x ∈ (ws.foldl (fun t w => (BKDelTree.Insert dist t w).1) t).words ↔
        x ∈ ws ∨ x ∈ t.words) ∧
      (∀ r, t.root = some r →
        ∃ r', (ws.foldl (fun t w => (BKDelTree.Insert dist t w).1) t).root = some r' ∧
          r'.word = r.word) := by
  induction ws with
  | nil =>
    intro t hinv
    exact ⟨hinv, by simp, fun r hr => ⟨r, hr, rfl⟩⟩
  | cons w ws ih =>
    intro t hinv
    obtain ⟨h1, h2, h3⟩ := ih (t.Insert dist w).1 (BKDelTree.Insert_inv dist t w hinv)
    refine ⟨h1, ?_, ?_⟩
    · intro x
      simp only [List.foldl_cons, h2 x, BKDelTree.mem_words_Insert dist t w hinv x,
        List.mem_cons]
      tauto
    · intro r hr
      obtain ⟨r1, e1, w1⟩ := BKDelTree.Insert_root dist t r w hinv hr
      obtain ⟨r2, e2, w2⟩ := h3 r1 e1
      exact ⟨r2, e2, w2.trans w1⟩

theorem Reachable.foldl_Insert {dist : String → String → Int} (ws : List String) :
    ∀ t : BKDelTree, Reachable dist t →
      Reachable dist (ws.foldl (fun t w => (BKDelTree.Insert dist t w).1) t) := by
  induction ws with
  | nil => exact fun t ht => ht
  | cons w ws ih => exact fun t ht => ih _ (Reachable.insert t w ht)

theorem Reachable.insertAll (dist : String → String → Int) (ws : List String) :
    Reachable dist (insertAll dist ws) :=
  Reachable.foldl_Insert ws NewBKDelTree Reachable.new

/-! ## The example metric and trees -/

theorem exDist_isMetric : IsMetric exDist := by
  refine ⟨?_, ?_, ?_, ?_⟩
  · intro x y
    unfold exDist
    split <;> omega
  · intro x y
    unfold exDist
    by_cases h : x = y
    · simp [h]
    · simp only [h, if_false, iff_false]
      omega
  · intro x y
    unfold exDist
    by_cases hxy : x = y
    · subst hxy; rfl
    · have hyx : ¬ y = x := fun e => hxy e.symm
      simp only [hxy, hyx, if_false]
      omega
  · intro x y z
    unfold exDist
    by_cases hxy : x = y
    · subst hxy
      simp only [if_true, sub_self, Int.natAbs_zero]
      omega
    · by_cases hyz : y = z
      · subst hyz
        simp only [if_true, sub_self, Int.natAbs_zero, hxy, if_false]
        omega
      · simp only [hxy, hyz, if_false]
        split <;> omega

theorem storedOrder_iterOrder : IterOrder storedOrder :=
  fun _ => List.Perm.refl _

theorem exTree_reachable : Reachable exDist exTree :=
  Reachable.insertAll exDist _

theorem exTreeDel_reachable : Reachable exDist exTreeDel :=
  Reachable.delete exTree "bb" storedOrder exTree_reachable storedOrder_iterOrder

/-! ## Further facts about maps and nodes -/

theorem BKMap.words_subset_of_get {m : BKMap} {i : Int} {c : BKNode} (h : m.get i = some c) :
    c.words ⊆ m.words := by
  induction m with
  | nil => simp [BKMap.get] at h
  | cons k c' rest ih =>
    by_cases hk : k = i
    · simp only [BKMap.get, hk, if_true, Option.some.injEq] at h
      subst h
      exact fun x hx => by simp [BKMap.words, hx]
    · simp only [BKMap.get, hk, if_false] at h
      exact fun x hx => by simp [BKMap.words, ih h hx]

/-- A word that occurs nowhere below `n` has no parent below `n`, in any tree. -/
theorem BKNode.getParent_not_stored (dist : String → String → Int) (n : BKNode)
    (word : String) : word ∉ n.words → n.getParent dist word = (none, some "word not found") := by
  induction n using BKNode.induct with
  | h w cc ch ih =>
    intro hmem
    simp only [BKNode.words, List.mem_cons, not_or] at hmem
    rw [BKNode.getParent_mk]
    cases hg : ch.get (dist w word) with
    | none => rfl
    | some c =>
      have hc : word ∉ c.words := fun h => hmem.2 (BKMap.words_subset_of_get hg h)
      have hne : ¬ c.word = word := fun h => hc (h ▸ c.word_mem_words)
      simp only [hne, if_false]
      exact ih _ c hg hc

theorem BKDelTree.Delete_not_stored (dist : String → String → Int) (ord : BKNode → List Int)
    (t : BKDelTree) (word : String) (hne : t.root ≠ none) (hmem : word ∉ t.words) :
    t.Delete dist ord word = (t, some ("word not found: " ++ word)) := by
  cases hr : t.root with
  | none => exact absurd hr hne
  | some r =>
    simp only [BKDelTree.words, hr] at hmem
    have hw : ¬ r.word = word := fun h => hmem (h ▸ r.word_mem_words)
    simp only [BKDelTree.Delete, hr, BKDelTree.GetParent, hw, if_false,
      BKNode.getParent_not_stored dist r word hmem]

theorem BKMap.size_eq_length_entries (m : BKMap) : m.size = m.entries.length := by
  induction m with
  | nil => rfl
  | cons k c rest ih => simp [BKMap.size, BKMap.entries, ih]

theorem BKNode.childrenCount_eq (dist : String → String → Int) (n : BKNode)
    (hinv : n.Inv dist) : n.childrenCount = (n.child.entries.length : Int) := by
  cases n with
  | mk w cc ch =>
    simp only [BKNode.Inv] at hinv
    simp only [BKNode.childrenCount, BKNode.child, hinv.1, BKMap.size_eq_length_entries]

theorem BKMap.entry_subtree_dist {dist : String → String → Int} {m : BKMap} {w : String}
    (hinv : BKMap.Inv dist m w) (d : Int) (c : BKNode) (hc : (d, c) ∈ m.entries) :
    ∀ x ∈ c.nodes, dist w x.word = d := by
  induction m with
  | nil => simp [BKMap.entries] at hc
  | cons k c' rest ih =>
    simp only [BKMap.Inv] at hinv
    simp only [BKMap.entries, List.mem_cons, Prod.mk.injEq] at hc
    rcases hc with ⟨hd, hc⟩ | hc
    · subst hd; subst hc
      intro x hx
      refine (hinv.1 x.word ?_).1
      rw [BKNode.words_eq_map_nodes]
      exact List.mem_map_of_mem _ hx
    · exact ih hinv.2.2.2 hc

theorem BKNode.subtree_dist (dist : String → String → Int) (n : BKNode) (hinv : n.Inv dist)
    (d : Int) (c : BKNode) (hc : (d, c) ∈ n.child.entries) :
    ∀ x ∈ c.nodes, dist n.word x.word = d := by
  cases n with
  | mk w cc ch =>
    simp only [BKNode.Inv] at hinv
    simp only [BKNode.child] at hc
    exact BKMap.entry_subtree_dist hinv.2 d c hc

theorem BKDelTree.root_none_iff (dist : String → String → Int) (t : BKDelTree)
    (hinv : t.Inv dist) :
    (t.root = none ↔ t.numNodes = 0) ∧ (t.root = none ↔ t.words = []) := by
  cases hr : t.root with
  | none =>
    simp only [BKDelTree.Inv, hr] at hinv
    simp [BKDelTree.words, hr, hinv]
  | some r =>
    simp only [BKDelTree.Inv, hr] at hinv
    have h1 : 0 < r.count := by
      cases r with
      | mk w cc ch => simp [BKNode.count]
    have h2 : r.words ≠ [] := by
      cases r with
      | mk w cc ch => simp [BKNode.words]
    refine ⟨⟨(fun h => nomatch h), fun h => ?_⟩, ⟨(fun h => nomatch h), fun h => ?_⟩⟩
    · rw [hinv.2] at h; omega
    · simp only [BKDelTree.words, hr] at h; exact absurd h h2

/-! ## Insert followed by Delete -/

theorem BKMap.not_mem_keys_of_get_none {m : BKMap} {i : Int} (h : m.get i = none) :
    i ∉ m.keys := by
  intro hi
  obtain ⟨c, hc⟩ := BKMap.get_of_mem_keys hi
  rw [h] at hc
  cases hc

theorem BKMap.replace_replace (m : BKMap) (i : Int) (a b : BKNode) :
    (m.replace i a).replace i b = m.replace i b := by
  induction m with
  | nil => rfl
  | cons k c rest ih =>
    by_cases hk : k = i
    · simp [BKMap.replace, hk]
    · simp [BKMap.replace, hk, ih]

theorem BKMap.replace_self {m : BKMap} {i : Int} {c : BKNode} (h : m.get i = some c) :
    m.replace i c = m := by
  induction m with
  | nil => rfl
  | cons k c' rest ih =>
    by_cases hk : k = i
    · simp only [BKMap.get, hk, if_true, Option.some.injEq] at h
      simp [BKMap.replace, hk, h]
    · simp only [BKMap.get, hk, if_false] at h
      simp [BKMap.replace, hk, ih h]

theorem BKNode.insert_vacant (dist : String → String → Int) {w : String} (cc : Int)
    {ch : BKMap} {word : String} (hw : ¬ w = word) (hg : ch.get (dist w word) = none) :
    (BKNode.mk w cc ch).insert dist word =
      (.mk w (cc + 1) (.cons (dist w word) (newBKNode word) ch), 1, none) := by
  simp only [BKNode.insert, hw, if_false, BKMap.insertAt_eq, hg, Option.map_none',
    BKMap.set, BKMap.erase_of_not_mem (BKMap.not_mem_keys_of_get_none hg)]

theorem BKNode.insert_step (dist : String → String → Int) {w : String} (cc : Int)
    {ch : BKMap} {word : String} {c : BKNode} (hw : ¬ w = word)
    (hg : ch.get (dist w word) = some c) :
    ((BKNode.mk w cc ch).insert dist word).1 =
        .mk w cc (ch.replace (dist w word) (c.insert dist word).1) ∧
      ((BKNode.mk w cc ch).insert dist word).2.2 = (c.insert dist word).2.2 := by
  simp only [BKNode.insert, hw, if_false, BKMap.insertAt_eq, hg, Option.map_some']
  cases (c.insert dist word).2.2 <;> exact ⟨rfl, rfl⟩

theorem BKNode.insert_word (dist : String → String → Int) (n : BKNode) (word : String) :
    (n.insert dist word).1.word = n.word := by
  cases n with
  | mk w cc ch =>
    by_cases hw : w = word
    · simp [BKNode.insert, hw, BKNode.word]
    · cases hg : ch.get (dist w word) with
      | none => rw [BKNode.insert_vacant dist cc hw hg]; rfl
      | some c => rw [(BKNode.insert_step dist cc hw hg).1]; rfl

theorem BKNode.collectFamily_leaf (ord : BKNode → List Int) (word : String) :
    (newBKNode word).collectFamily ord = [newBKNode word] := by
  simp only [newBKNode, BKNode.collectFamily, BKMap.collectAt, List.cons.injEq, true_and]
  induction ord (.mk word 0 .nil) with
  | nil => rfl
  | cons i l ih => simp

/-- After the insertion of a word that was not stored, `getParent` finds the node the
word was attached to, and removing the new child there gives the old subtree back. -/
theorem BKNode.insert_then_drop (dist : String → String → Int) (n : BKNode) (word : String) :
    word ∉ n.words →
      (n.insert dist word).2.2 = none ∧
      ∃ p, (n.insert dist word).1.getParent dist word = (some p, none) ∧
        p.child.get (dist p.word word) = some (newBKNode word) ∧
        (n.insert dist word).1.updateParent dist
          (fun q => q.dropChild (dist p.word word)) word = n := by
  induction n using BKNode.induct with
  | h w cc ch ih =>
    intro hmem
    simp only [BKNode.words, List.mem_cons, not_or] at hmem
    have hw : ¬ w = word := fun h => hmem.1 h.symm
    cases hg : ch.get (dist w word) with
    | none =>
      rw [BKNode.insert_vacant dist cc hw hg]
      have hget : (BKMap.cons (dist w word) (newBKNode word) ch).get (dist w word) =
          some (newBKNode word) := by simp [BKMap.get]
      have hword : (newBKNode word).word = word := rfl
      refine ⟨rfl, _, BKNode.getParent_hit dist hget hword, hget, ?_⟩
      rw [BKNode.updateParent_hit dist _ hget hword]
      simp only [BKNode.dropChild, BKNode.word, BKNode.childrenCount, BKNode.child,
        BKMap.erase, if_true, BKMap.erase_of_not_mem (BKMap.not_mem_keys_of_get_none hg),
        add_sub_cancel_right]
    | some c =>
      have hc : word ∉ c.words := fun h => hmem.2 (BKMap.words_subset_of_get hg h)
      obtain ⟨h1, p, h2, h3, h4⟩ := ih _ c hg hc
      obtain ⟨e1, e2⟩ := BKNode.insert_step dist cc hw hg
      have hget : (ch.replace (dist w word) (c.insert dist word).1).get (dist w word) =
          some (c.insert dist word).1 := by
        rw [BKMap.get_replace, if_pos rfl, hg]; rfl
      have hne : ¬ (c.insert dist word).1.word = word := by
        rw [BKNode.insert_word]
        exact fun h => hc (h ▸ c.word_mem_words)
      rw [e1, e2]
      refine ⟨h1, p, ?_, h3, ?_⟩
      · rw [BKNode.getParent_step dist hget hne]; exact h2
      · rw [BKNode.updateParent_step dist _ hget hne, h4, BKMap.replace_replace,
          BKMap.replace_self hg]

theorem BKDelTree.Insert_then_Delete (dist : String → String → Int) (ord : BKNode → List Int)
    (t : BKDelTree) (hinv : t.Inv dist) (word : String) (hmem : word ∉ t.words) :
    (t.Insert dist word).2 = none ∧ (t.Insert dist word).1.Delete dist ord word = (t, none) := by
  cases t with
  | mk root numNodes =>
    cases root with
    | none =>
      simp only [BKDelTree.Inv] at hinv
      subst hinv
      refine ⟨rfl, ?_⟩
      simp only [BKDelTree.Insert, BKDelTree.Delete, BKDelTree.GetParent, newBKNode,
        BKNode.word, if_true]
      have h := BKNode.collectFamily_leaf ord word
      simp only [newBKNode] at h
      simp only [h, List.tail_cons, rebuild, List.foldl_nil, NewBKDelTree]
    | some r =>
      simp only [BKDelTree.words] at hmem
      obtain ⟨h1, p, h2, h3, h4⟩ := BKNode.insert_then_drop dist r word hmem
      have hne : ¬ (r.insert dist word).1.word = word := by
        rw [BKNode.insert_word]
        exact fun h => hmem (h ▸ r.word_mem_words)
      have hword : (newBKNode word).word = word := rfl
      simp only [BKDelTree.Insert, h1]
      refine ⟨trivial, ?_⟩
      simp only [BKDelTree.Delete, BKDelTree.GetParent, hne, if_false, h2, BKNode.deleteChild,
        h3, hword, if_true, h4, BKNode.collectFamily_leaf, List.tail_cons, reinsertAll,
        List.foldl_nil, add_sub_cancel_right]

/-! ## The frame of an insertion -/

theorem BKMap.descendAt_eq (dist : String → String → Int) (m : BKMap) (i : Int) (word : String) :
    BKMap.descendAt dist m i word = (m.get i).map (fun c => c.descend dist word) := by
  induction m with
  | nil => rfl
  | cons k c rest ih =>
    by_cases hk : k = i
    · simp [BKMap.descendAt, BKMap.get, hk]
    · simp only [BKMap.descendAt, BKMap.get, hk, if_false, ih]

theorem BKNode.descend_vacant (dist : String → String → Int) {w : String} (cc : Int)
    {ch : BKMap} {word : String} (hg : ch.get (dist w word) = none) :
    (BKNode.mk w cc ch).descend dist word = .mk w cc ch := by
  simp only [BKNode.descend, BKMap.descendAt_eq, hg, Option.map_none']

theorem BKNode.descend_step (dist : String → String → Int) {w : String} (cc : Int)
    {ch : BKMap} {word : String} {c : BKNode} (hg : ch.get (dist w word) = some c) :
    (BKNode.mk w cc ch).descend dist word = c.descend dist word := by
  simp only [BKNode.descend, BKMap.descendAt_eq, hg, Option.map_some']

/-- The links of a well-formed map, split at the entry found by a lookup, and the links
after that entry has been replaced. -/
theorem BKMap.edges_split {dist : String → String → Int} {m : BKMap} {w : String} {i : Int}
    {c : BKNode} (c' : BKNode) (hinv : BKMap.Inv dist m w) (h : m.get i = some c) :
    (m.edges w).Perm ((w, i, c.word) :: (c.edges ++ (m.erase i).edges w)) ∧
      ((m.replace i c').edges w).Perm ((w, i, c'.word) :: (c'.edges ++ (m.erase i).edges w)) := by
  induction m with
  | nil => simp [BKMap.get] at h
  | cons k c0 rest ih =>
    simp only [BKMap.Inv] at hinv
    by_cases hk : k = i
    · simp only [BKMap.get, hk, if_true, Option.some.injEq] at h
      subst h
      subst hk
      simp only [BKMap.erase, BKMap.replace, if_true, BKMap.erase_of_not_mem hinv.2.2.1,
        BKMap.edges]
      exact ⟨List.Perm.refl _, List.Perm.refl _⟩
    · simp only [BKMap.get, hk, if_false] at h
      obtain ⟨h1, h2⟩ := ih hinv.2.2.2 h
      simp only [BKMap.erase, BKMap.replace, hk, if_false, BKMap.edges]
      constructor
      · rw [← Multiset.coe_eq_coe] at h1 ⊢
        simp only [← Multiset.cons_coe, ← Multiset.coe_add, ← Multiset.singleton_add] at h1 ⊢
        rw [h1]; abel
      · rw [← Multiset.coe_eq_coe] at h2 ⊢
        simp only [← Multiset.cons_coe, ← Multiset.coe_add, ← Multiset.singleton_add] at h2 ⊢
        rw [h2]; abel

theorem BKNode.insert_frame (dist : String → String → Int) (n : BKNode) (word : String) :
    n.Inv dist → word ∉ n.words →
      ∃ labels, BKNode.InsertFrame dist n word (n.descend dist word) labels := by
  induction n using BKNode.induct with
  | h w cc ch ih =>
    intro hinv hmem
    simp only [BKNode.Inv] at hinv
    simp only [BKNode.words, List.mem_cons, not_or] at hmem
    have hw : ¬ w = word := fun h => hmem.1 h.symm
    cases hg : ch.get (dist w word) with
    | none =>
      refine ⟨ch.nodes.map BKNode.label, ?_⟩
      rw [BKNode.descend_vacant dist cc hg]
      refine ⟨BKNode.self_mem_nodes _, hg, ?_, ?_, ?_, ?_⟩
      · rw [BKNode.insert_vacant dist cc hw hg]
        simp only [BKNode.edges, BKMap.edges, newBKNode, BKNode.word, List.nil_append]
        exact List.Perm.refl _
      · simp only [BKNode.nodes, List.map_cons]
        exact List.Perm.refl _
      · rw [BKNode.insert_vacant dist cc hw hg]
        simp only [BKNode.nodes, BKMap.nodes, newBKNode, List.map_cons, List.cons_append,
          List.nil_append, BKNode.label, BKNode.word, BKNode.childrenCount]
        exact List.Perm.swap _ _ _
      · rw [BKNode.insert_vacant dist cc hw hg]
        simp [BKNode.nodes, BKMap.nodes, newBKNode]
    | some c =>
      obtain ⟨g1, g2, g3, g4, g5, g6⟩ := BKMap.get_spec hinv.2 hg
      have hc : word ∉ c.words := fun h => hmem.2 (BKMap.words_subset_of_get hg h)
      obtain ⟨L, hf⟩ := ih _ c hg g1 hc
      obtain ⟨e1, -⟩ := BKNode.insert_step dist cc hw hg
      obtain ⟨s1, s2⟩ := BKMap.edges_split (c.insert dist word).1 hinv.2 hg
      obtain ⟨-, -, r3, -⟩ := BKMap.replace_spec (c.insert dist word).1 hinv.2 hg
      refine ⟨(w, cc) :: (L ++ (ch.erase (dist w word)).nodes.map BKNode.label), ?_⟩
      rw [BKNode.descend_step dist cc hg]
      refine ⟨?_, hf.vacant, ?_, ?_, ?_, ?_⟩
      · simp only [BKNode.nodes, List.mem_cons]
        exact Or.inr (g4.symm.subset (List.mem_append_left _ hf.mem))
      · rw [e1]
        simp only [BKNode.edges]
        have he := hf.edges
        rw [BKNode.insert_word] at s2
        rw [← Multiset.coe_eq_coe] at s1 s2 he ⊢
        simp only [← Multiset.cons_coe, ← Multiset.coe_add, ← Multiset.singleton_add]
          at s1 s2 he ⊢
        rw [s1, s2, he]; abel
      · simp only [BKNode.nodes, List.map_cons]
        have h4 := g4.map BKNode.label
        have ho := hf.old
        simp only [List.map_append] at h4
        rw [← Multiset.coe_eq_coe] at h4 ho ⊢
        simp only [← Multiset.cons_coe, ← Multiset.coe_add, ← Multiset.singleton_add]
          at h4 ho ⊢
        rw [h4, ho]
        simp only [BKNode.label, BKNode.word, BKNode.childrenCount]
        abel
      · rw [e1]
        simp only [BKNode.nodes, List.map_cons]
        have h3 := r3.map BKNode.label
        have hn := hf.new
        simp only [List.map_append] at h3
        rw [← Multiset.coe_eq_coe] at h3 hn ⊢
        simp only [← Multiset.cons_coe, ← Multiset.coe_add, ← Multiset.singleton_add]
          at h3 hn ⊢
        rw [h3, hn]
        simp only [BKNode.label, BKNode.word, BKNode.childrenCount]
        abel
      · rw [e1]
        simp only [BKNode.nodes, List.mem_cons]
        exact Or.inr (r3.symm.subset (List.mem_append_left _ hf.leaf))

/-! ## The frame of a deletion below the root -/

/-- The links of a subtree split into the link to the node found by `getParent`, the
links below that node, and the links that stay after it has been detached. -/
theorem BKNode.detach_edges (dist : String → String → Int) (word : String) (p x : BKNode)
    (hx : p.child.get (dist p.word word) = some x) (n : BKNode) :
    n.Inv dist → n.getParent dist word = (some p, none) →
      n.edges.Perm ((p.word, dist p.word word, word) ::
        (x.edges ++
          (n.updateParent dist (fun q => q.dropChild (dist p.word word)) word).edges)) := by
  induction n using BKNode.induct with
  | h w cc ch ih =>
    intro hinv hfound
    simp only [BKNode.Inv] at hinv
    cases hg : ch.get (dist w word) with
    | none =>
      rw [BKNode.getParent_mk, hg] at hfound
      cases hfound
    | some c =>
      obtain ⟨s1, s2⟩ := BKMap.edges_split
        (c.updateParent dist (fun q => q.dropChild (dist p.word word)) word) hinv.2 hg
      by_cases hcw : c.word = word
      · rw [BKNode.getParent_hit dist hg hcw] at hfound
        simp only [Prod.mk.injEq, Option.some.injEq, and_true] at hfound
        subst hfound
        simp only [BKNode.child, BKNode.word] at hx
        rw [hg] at hx
        simp only [Option.some.injEq] at hx
        subst hx
        rw [BKNode.updateParent_hit dist _ hg hcw]
        simp only [BKNode.word, BKNode.dropChild, BKNode.child, BKNode.edges]
        rw [hcw] at s1
        exact s1
      · rw [BKNode.getParent_step dist hg hcw] at hfound
        have hc := ih _ c hg (BKMap.get_spec hinv.2 hg).1 hfound
        rw [BKNode.updateParent_step dist _ hg hcw]
        simp only [BKNode.edges]
        have hword : (c.updateParent dist (fun q => q.dropChild (dist p.word word)) word).word =
            c.word := by
          cases c with
          | mk w' cc' ch' =>
            cases hg' : ch'.get (dist w' word) with
            | none => rw [BKNode.updateParent_mk, hg']
            | some c' =>
              by_cases hcw' : c'.word = word
              · rw [BKNode.updateParent_hit dist _ hg' hcw']; rfl
              · rw [BKNode.updateParent_step dist _ hg' hcw']; rfl
        rw [hword] at s2
        rw [← Multiset.coe_eq_coe] at s1 s2 hc ⊢
        simp only [← Multiset.cons_coe, ← Multiset.coe_add, ← Multiset.singleton_add]
          at s1 s2 hc ⊢
        rw [s1, s2, hc]; abel

/-- The links created by the reinsertion loop of `deleteChild`: one per reinserted word,
the old links being kept. -/
theorem reinsertAll_edges (dist : String → String → Int) (subs : List BKNode) :
    ∀ (r : BKNode) (k : Int), r.Inv dist → (subs.map BKNode.word).Nodup →
      (∀ s ∈ subs, s.word ∉ r.words) →
      ∃ r' added, reinsertAll dist { root := some r, numNodes := k } subs =
          { root := some r', numNodes := k } ∧
        r'.edges.Perm (added ++ r.edges) ∧
        (added.map (fun e => e.2.2)).Perm (subs.map BKNode.word) := by
  induction subs with
  | nil =>
    intro r k _ _ _
    exact ⟨r, [], rfl, List.Perm.refl _, List.Perm.refl _⟩
  | cons s subs ih =>
    intro r k hinv hnd hdis
    simp only [List.map_cons, List.nodup_cons] at hnd
    have hs : s.word ∉ r.words := hdis s (List.mem_cons_self _ _)
    have h := BKNode.insert_new dist r s.word hinv hs
    obtain ⟨labels, hf⟩ := BKNode.insert_frame dist r s.word hinv hs
    have hstep : reinsertAll dist { root := some r, numNodes := k } (s :: subs) =
        reinsertAll dist { root := some (r.insert dist s.word).1, numNodes := k } subs := by
      simp only [reinsertAll, List.foldl_cons, BKDelTree.Insert_some dist r (k - 1) s.word hinv hs]
      simp
    obtain ⟨r', added, e, he, ha⟩ := ih (r.insert dist s.word).1 k h.inv hnd.2 (by
      intro s' hs' hmem
      rcases List.mem_cons.1 (h.words.subset hmem) with e | e
      · exact hnd.1 (e ▸ List.mem_map_of_mem _ hs')
      · exact hdis s' (List.mem_cons_of_mem _ hs') e)
    refine ⟨r', ((r.descend dist s.word).word, dist (r.descend dist s.word).word s.word, s.word)
      :: added, hstep.trans e, ?_, ?_⟩
    · have h1 := hf.edges
      rw [← Multiset.coe_eq_coe] at he h1 ⊢
      simp only [List.cons_append, ← Multiset.cons_coe, ← Multiset.coe_add,
        ← Multiset.singleton_add] at he h1 ⊢
      rw [he, h1]; abel
    · simp only [List.map_cons]
      exact List.Perm.cons _ ha

/-- What `Delete` of a word stored below the root keeps and what it rebuilds. -/
theorem BKDelTree.Delete_frame (dist : String → String → Int) (ord : BKNode → List Int)
    (hord : IterOrder ord) (t : BKDelTree) (r : BKNode) (word : String) (hr : t.root = some r)
    (hinv : t.Inv dist) (hmem : word ∈ t.words) (hne : word ≠ r.word) :
    ∃ p x r' kept added,
      t.GetParent dist word = (some p, none) ∧ p ∈ r.nodes ∧
      p.child.get (dist p.word word) = some x ∧ x.word = word ∧
      (t.Delete dist ord word).1.root = some r' ∧ r'.word = r.word ∧
      r.edges.Perm ((p.word, dist p.word word, word) :: (x.edges ++ kept)) ∧
      r'.edges.Perm (added ++ kept) ∧
      (added.map (fun e => e.2.2)).Perm x.child.words := by
  have hinv' := hinv
  simp only [BKDelTree.Inv, hr] at hinv'
  simp only [BKDelTree.words, hr] at hmem
  have hnd := BKNode.inv_nodup dist r hinv'.1
  obtain ⟨p, x, hd⟩ := BKNode.detach dist r word hinv'.1 hmem hne
  have htail := BKNode.collectFamily_tail dist ord hord x hd.invx
  have hxw : x.words = word :: x.child.words := by
    have := hd.wordx
    cases x with
    | mk w cc ch => subst this; rfl
  have hnd2 := hd.words.nodup_iff.1 hnd
  rw [hxw] at hnd2
  have hndx : x.child.words.Nodup := (List.nodup_cons.1 (List.Nodup.of_append_left hnd2)).2
  obtain ⟨r', added, e, he, ha⟩ := reinsertAll_edges dist (x.collectFamily ord).tail
    (r.updateParent dist (fun q => q.dropChild (dist p.word word)) word) (t.numNodes - 1)
    hd.inv (htail.nodup_iff.2 hndx) (by
      intro s hs hmem'
      have h1 : s.word ∈ x.child.words := htail.subset (List.mem_map_of_mem _ hs)
      exact (List.disjoint_of_nodup_append hnd2) (List.mem_cons_of_mem _ h1) hmem')
  obtain ⟨r2, e2, -, -, hw2, -⟩ := reinsertAll_spec dist (x.collectFamily ord).tail
    (r.updateParent dist (fun q => q.dropChild (dist p.word word)) word) (t.numNodes - 1)
    hd.inv (htail.nodup_iff.2 hndx) (by
      intro s hs hmem'
      have h1 : s.word ∈ x.child.words := htail.subset (List.mem_map_of_mem _ hs)
      exact (List.disjoint_of_nodup_append hnd2) (List.mem_cons_of_mem _ h1) hmem')
  have hr2 : r2 = r' := by
    rw [e] at e2
    simpa using e2.symm
  subst hr2
  refine ⟨p, x, r2, _, added, ?_, hd.mem, hd.get, hd.wordx, ?_, hw2.trans hd.root,
    BKNode.detach_edges dist word p x hd.get r hinv'.1 hd.found, he, ha.trans htail⟩
  · have hne' : ¬ r.word = word := fun h => hne h.symm
    simp only [BKDelTree.GetParent, hr, hne', if_false]
    exact hd.found
  · rw [BKDelTree.Delete_inner dist ord t r p x word hr hne hd, e]

/-! ## Deletion of the root -/

theorem BKMap.entry_of_get {m : BKMap} {i : Int} {c : BKNode} (h : m.get i = some c) :
    (i, c) ∈ m.entries := by
  induction m with
  | nil => simp [BKMap.get] at h
  | cons k c' rest ih =>
    by_cases hk : k = i
    · simp only [BKMap.get, hk, if_true, Option.some.injEq] at h
      simp [BKMap.entries, hk, h]
    · simp only [BKMap.get, hk, if_false] at h
      simp [BKMap.entries, ih h]

/-- The collection is in pre-order: the node, then the collection of each child in the
order in which the child map is enumerated. -/
theorem BKNode.collectFamily_preorder (ord : BKNode → List Int) (n : BKNode) :
    n.collectFamily ord = n ::
      ((ord n).map (fun i =>
        match n.child.get i with
        | some c => c.collectFamily ord
        | none => [])).flatten := by
  cases n with
  | mk w cc ch =>
    simp only [BKNode.collectFamily, BKNode.child, BKMap.collectAt_eq]

theorem rebuild_eq_insertAll (dist : String → String → Int) (subs : List BKNode) :
    rebuild dist subs = insertAll dist (subs.map BKNode.word) := by
  simp only [rebuild, insertAll, List.foldl_map]

theorem insertAll_snoc_ok (dist : String → String → Int) (ws : List String) (w : String)
    (hnd : (ws ++ [w]).Nodup) : ((insertAll dist ws).Insert dist w).2 = none := by
  have hinv : (insertAll dist ws).Inv dist := (Reachable.insertAll dist ws).inv
  obtain ⟨-, h2, -⟩ := foldl_Insert_words dist ws NewBKDelTree
    (by simp [BKDelTree.Inv, NewBKDelTree])
  have hmem : w ∉ (insertAll dist ws).words := by
    intro h
    have h' := (h2 w).1 h
    simp only [BKDelTree.words, NewBKDelTree, List.not_mem_nil, or_false] at h'
    exact (List.disjoint_of_nodup_append hnd) h' (List.mem_singleton_self w)
  exact (BKDelTree.Insert_new dist _ w hinv hmem).1

theorem insertAll_root (dist : String → String → Int) (w : String) (ws : List String) :
    ∃ r, (insertAll dist (w :: ws)).root = some r ∧ r.word = w := by
  have h0 : (NewBKDelTree.Insert dist w).1.Inv dist :=
    BKDelTree.Insert_inv dist _ w (by simp [BKDelTree.Inv, NewBKDelTree])
  obtain ⟨-, -, h3⟩ := foldl_Insert_words dist ws (NewBKDelTree.Insert dist w).1 h0
  exact h3 (newBKNode w) rfl

/-- The first node collected after a root that has children is one of its children. -/
theorem BKNode.collectFamily_second (ord : BKNode → List Int)
    (hord : IterOrder ord) (n : BKNode) (hc : n.child ≠ .nil) :
    ∃ k c, (ord n).head? = some k ∧ (k, c) ∈ n.child.entries ∧
      (n.collectFamily ord).tail.head? = some c := by
  have hp := hord n
  cases hk : ord n with
  | nil =>
    rw [hk] at hp
    have hnil := hp.symm.eq_nil
    cases hch : n.child with
    | nil => exact absurd hch hc
    | cons k c rest => rw [hch] at hnil; simp [BKMap.keys] at hnil
  | cons k rest =>
    have hmem : k ∈ n.child.keys := hp.subset (by rw [hk]; exact List.mem_cons_self _ _)
    obtain ⟨c, hg⟩ := BKMap.get_of_mem_keys hmem
    refine ⟨k, c, rfl, BKMap.entry_of_get hg, ?_⟩
    rw [BKNode.collectFamily_preorder, hk]
    simp only [List.tail_cons, List.map_cons, List.flatten_cons, hg]
    rw [BKNode.collectFamily_head]
    rfl

theorem BKDelTree.Delete_root_eq (dist : String → String → Int) (ord : BKNode → List Int)
    (t : BKDelTree) (r : BKNode) (hr : t.root = some r) :
    (t.Delete dist ord r.word).1 =
      insertAll dist ((r.collectFamily ord).tail.map BKNode.word) := by
  rw [BKDelTree.Delete_root dist ord t r hr, ← rebuild_eq_insertAll]

/-! ## Pretty printing -/

theorem digitChar_ne_newline (d : Nat) : Nat.digitChar d ≠ '\n' := by
  by_cases h : d < 16
  · interval_cases d <;> decide
  · unfold Nat.digitChar
    repeat rw [if_neg (by omega)]
    decide

theorem toDigitsCore_no_newline (fuel : Nat) :
    ∀ (n : Nat) (ds : List Char), '\n' ∉ ds → '\n' ∉ Nat.toDigitsCore 10 fuel n ds := by
  induction fuel with
  | zero => intro n ds h; simpa [Nat.toDigitsCore] using h
  | succ fuel ih =>
    intro n ds h
    have hd : '\n' ∉ Nat.digitChar (n % 10) :: ds := by
      simp only [List.mem_cons, not_or]
      exact ⟨fun e => digitChar_ne_newline _ e.symm, h⟩
    simp only [Nat.toDigitsCore]
    split
    · exact hd
    · exact ih _ _ hd

theorem Nat_repr_no_newline (n : Nat) : '\n' ∉ (Nat.repr n).data := by
  simp only [Nat.repr, Nat.toDigits, List.asString]
  exact toDigitsCore_no_newline _ _ _ (List.not_mem_nil _)

theorem Int_repr_no_newline (i : Int) : '\n' ∉ (Int.repr i).data := by
  cases i with
  | ofNat m => exact Nat_repr_no_newline m
  | negSucc m =>
    simp only [Int.repr, String.data_append, List.mem_append, not_or]
    exact ⟨by decide, Nat_repr_no_newline _⟩

theorem repeatString_no_newline (s : String) (hs : '\n' ∉ s.data) (count : Nat) :
    '\n' ∉ (repeatString s count).data := by
  induction count with
  | zero => simp [repeatString]
  | succ k ih =>
    simp only [repeatString, String.data_append, List.mem_append, not_or]
    exact ⟨hs, ih⟩

theorem pprintText_no_newline (n : BKNode) (indentLevel : Nat) (indentChar : String)
    (distance : Int) (hw : '\n' ∉ n.word.data) (hi : '\n' ∉ indentChar.data) :
    '\n' ∉ (pprintText n indentLevel indentChar distance).data := by
  simp only [pprintText, String.data_append, List.mem_append, not_or]
  exact ⟨⟨⟨⟨⟨⟨repeatString_no_newline _ hi _, hw⟩, by decide⟩, Int_repr_no_newline _⟩,
    by decide⟩, Int_repr_no_newline _⟩, by decide⟩

theorem BKMap.pprintAt_eq (ord : BKNode → List Int) (m : BKMap) (d : Int) (sb : String)
    (indentLevel : Nat) (indentChar : String) :
    BKMap.pprintAt ord m d sb indentLevel indentChar =
      match m.get d with
      | some c => c.pprint ord sb indentLevel indentChar d
      | none => sb := by
  induction m with
  | nil => rfl
  | cons k c rest ih =>
    by_cases hk : k = d
    · subst hk; simp [BKMap.pprintAt, BKMap.get]
    · simp only [BKMap.pprintAt, BKMap.get, hk, if_false, ih]

theorem BKMap.printedAt_eq (ord : BKNode → List Int) (m : BKMap) (d : Int)
    (indentLevel : Nat) :
    BKMap.printedAt ord m d indentLevel =
      match m.get d with
      | some c => c.printed ord indentLevel d
      | none => [] := by
  induction m with
  | nil => rfl
  | cons k c rest ih =>
    by_cases hk : k = d
    · subst hk; simp [BKMap.printedAt, BKMap.get]
    · simp only [BKMap.printedAt, BKMap.get, hk, if_false, ih]

theorem foldl_data_append {α : Type} (g : String → α → String) (h : α → List Char)
    (hg : ∀ sb a, (g sb a).data = sb.data ++ h a) (l : List α) (init : String) :
    (l.foldl g init).data = init.data ++ (l.map h).flatten := by
  induction l generalizing init with
  | nil => simp
  | cons a l ih => rw [List.foldl_cons, ih, hg]; simp

/-- The text written by `pprint`: the lines of the printed nodes, appended to the builder. -/
theorem BKNode.pprint_data (ord : BKNode → List Int) (indentChar : String) (n : BKNode) :
    ∀ (sb : String) (indentLevel : Nat) (distance : Int),
      (n.pprint ord sb indentLevel indentChar distance).data =
        sb.data ++ ((n.printed ord indentLevel distance).map
          (fun e => (pprintText e.1 e.2.1 indentChar e.2.2 ++ "\n").data)).flatten := by
  induction n using BKNode.induct with
  | h w cc ch ih =>
    intro sb indentLevel distance
    have hg : ∀ (sb : String) (d : Int),
        (BKMap.pprintAt ord ch d sb (indentLevel + 1) indentChar).data =
          sb.data ++ ((BKMap.printedAt ord ch d (indentLevel + 1)).map
            (fun e => (pprintText e.1 e.2.1 indentChar e.2.2 ++ "\n").data)).flatten := by
      intro sb d
      rw [BKMap.pprintAt_eq, BKMap.printedAt_eq]
      cases hget : ch.get d with
      | none => simp
      | some c => exact ih d c hget sb (indentLevel + 1) d
    simp only [BKNode.pprint, BKNode.printed]
    rw [foldl_data_append _ _ hg]
    simp only [String.data_append, List.map_cons, List.flatten_cons, List.map_flatten,
      List.map_map, List.append_assoc, List.flatten_flatten]
    rfl

theorem BKNode.printed_nodes (ord : BKNode → List Int) (n : BKNode) :
    ∀ (indentLevel : Nat) (distance : Int),
      (n.printed ord indentLevel distance).map (fun e => e.1) = n.collectFamily ord := by
  induction n using BKNode.induct with
  | h w cc ch ih =>
    intro indentLevel distance
    simp only [BKNode.printed, BKNode.collectFamily, List.map_cons, List.map_flatten,
      List.map_map, List.cons.injEq, true_and]
    congr 1
    apply List.map_congr_left
    intro d _
    simp only [Function.comp, BKMap.printedAt_eq, BKMap.collectAt_eq]
    cases hget : ch.get d with
    | none => rfl
    | some c => exact ih d c hget (indentLevel + 1) d

theorem count_newline_lines (lines : List String) (h : ∀ l ∈ lines, '\n' ∉ l.data) :
    ((lines.map (fun l => (l ++ "\n").data)).flatten).count '\n' = lines.length := by
  induction lines with
  | nil => rfl
  | cons l lines ih =>
    have h1 : l.data.count '\n' = 0 := List.count_eq_zero.2 (h l (List.mem_cons_self _ _))
    have h2 : ("\n" : String).data.count '\n' = 1 := by decide
    have h3 := ih (fun l' hl' => h l' (List.mem_cons_of_mem _ hl'))
    simp only [String.data_append, List.map_cons, List.flatten_cons, List.count_append,
      List.length_cons] at h2 h3 ⊢
    rw [h1, h3]
    simp only [List.count_singleton_self, zero_add]
    omega

/-! ## Search inside the int range -/

theorem BKMap.searchReturnsAt_eq (dist : String → String → Int) (m : BKMap) (i : Int)
    (word : String) (maxDist : Int) :
    BKMap.searchReturnsAt dist m i word maxDist =
      match m.get i with
      | some c => c.searchReturns dist word maxDist
      | none => True := by
  induction m with
  | nil => rfl
  | cons k c rest ih =>
    by_cases hk : k = i
    · simp [BKMap.searchReturnsAt, BKMap.get, hk]
    · simp only [BKMap.searchReturnsAt, BKMap.get, hk, if_false, ih]

/-- The call of `search` returns when `dist + maxDist` stays below the largest int at
every stored word. -/
theorem BKNode.searchReturns_in_range (dist : String → String → Int)
    (hnn : ∀ x y, 0 ≤ dist x y) (word : String) (maxDist : Int) (h0 : 0 ≤ maxDist)
    (n : BKNode) : n.Inv dist → (∀ a ∈ n.words, dist a word + maxDist < maxInt) →
      n.searchReturns dist word maxDist := by
  induction n using BKNode.induct with
  | h w cc ch ih =>
    intro hinv hb
    simp only [BKNode.Inv] at hinv
    have h1 := hb w (by simp [BKNode.words])
    have h2 := hnn w word
    have hmin : minInt = -9223372036854775808 := rfl
    have hmax : maxInt = 9223372036854775807 := rfl
    simp only [BKNode.searchReturns]
    refine ⟨Or.inr ?_, ?_⟩
    · rw [addInt_of_in_range (by omega) (by omega)]
      exact h1
    · intro i _
      rw [BKMap.searchReturnsAt_eq]
      cases hg : ch.get i with
      | none => trivial
      | some c =>
        refine ih i c hg (BKMap.get_spec hinv.2 hg).1 (fun a ha => hb a ?_)
        simp only [BKNode.words, List.mem_cons]
        exact Or.inr ((BKMap.get_spec hinv.2 hg).2.2.1.symm.subset (List.mem_append_left _ ha))

/-- For a metric, on a well-formed tree and for a radius `maxDist ≥ 0` that keeps
`dist + maxDist` below the largest int at every stored word, `Search` returns, and the
words it returns are exactly the stored words within `maxDist` of the query, each once. -/
theorem BKDelTree.Search_exact_in_range (dist : String → String → Int) (hm : IsMetric dist)
    (t : BKDelTree) (hinv : t.Inv dist) (q : String) (maxDist : Int) (h0 : 0 ≤ maxDist)
    (hb : ∀ a ∈ t.words, dist a q + maxDist < maxInt) :
    t.SearchReturns dist q maxDist ∧
      (∀ w, w ∈ (t.Search dist q maxDist).map BKNode.word ↔
        w ∈ t.words ∧ dist w q ≤ maxDist) ∧
      ((t.Search dist q maxDist).map BKNode.word).Nodup := by
  have hp := BKDelTree.Search_spec dist q maxDist t hinv
    (fun a ha x _ h => hm.cover q maxDist h0 a (le_of_lt (hb a ha)) x h)
  refine ⟨?_, ?_, ?_⟩
  · cases hr : t.root with
    | none => simp only [BKDelTree.SearchReturns, hr]
    | some r =>
      simp only [BKDelTree.Inv, hr] at hinv
      simp only [BKDelTree.words, hr] at hb
      simp only [BKDelTree.SearchReturns, hr]
      exact BKNode.searchReturns_in_range dist hm.nonneg q maxDist h0 r hinv.1 hb
  · intro w
    rw [hp.mem_iff, List.mem_filter, decide_eq_true_eq]
  · exact hp.nodup_iff.2 ((BKDelTree.words_nodup dist t hinv).filter _)

theorem insertAll_a_b (dist : String → String → Int) (h1 : dist "a" "b" = 1) :
    insertAll dist ["a", "b"] =
      { root := some (.mk "a" 1 (.cons 1 (.mk "b" 0 .nil) .nil)), numNodes := 2 } := by
  simp [insertAll, BKDelTree.Insert, BKNode.insert, BKMap.insertAt, NewBKDelTree, newBKNode,
    BKMap.set, BKMap.erase, h1]

/-! ## The claims -/

/-- C1 does not hold of the code for a radius near the largest int.  After `Insert("a")`
and `Insert("b")`, with `distance("a", "b") = 1` as the edit distance gives,
`Search("b", 9223372036854775807)` returns: at the root the bound `dist + maxDist` wraps
around to the smallest int, the loop over the children is empty, and the only node
returned is `a`, although `b` is stored at distance 0 from the query. -/
theorem search_misses_match_when_bound_wraps (dist : String → String → Int)
    (h1 : dist "a" "b" = 1) (h0 : dist "b" "b" = 0) :
    "b" ∈ (insertAll dist ["a", "b"]).words ∧ dist "b" "b" ≤ maxInt ∧ (0 : Int) ≤ maxInt ∧
      addInt (dist "a" "b") maxInt = minInt ∧
      intRange (subInt (dist "a" "b") maxInt) (addInt (dist "a" "b") maxInt) = [] ∧
      (insertAll dist ["a", "b"]).SearchReturns dist "b" maxInt ∧
      ((insertAll dist ["a", "b"]).Search dist "b" maxInt).map BKNode.word = ["a"] := by
  have hadd : addInt 1 maxInt = minInt := by decide
  have hrange : intRange (subInt 1 maxInt) (addInt 1 maxInt) = [] := by decide
  have hle : (1 : Int) ≤ maxInt := by decide
  rw [insertAll_a_b dist h1, h1, h0]
  refine ⟨by simp [BKDelTree.words, BKNode.words, BKMap.words], by decide, by decide, hadd,
    hrange, ?_, ?_⟩
  · simp only [BKDelTree.SearchReturns, BKNode.searchReturns, h1, hrange, loopReturns]
    exact ⟨Or.inl (by decide), fun i hi => by cases hi⟩
  · simp only [BKDelTree.Search, BKNode.search, h1, hrange, hle, if_true, List.foldl_nil,
      List.nil_append, List.map_cons, List.map_nil, BKNode.word]

theorem search_misses_match_when_bound_wraps_witness :
    exDist "a" "b" = 1 ∧ exDist "b" "b" = 0 ∧
      ("b" ∈ (insertAll exDist ["a", "b"]).words ∧ exDist "b" "b" ≤ maxInt ∧
        (0 : Int) ≤ maxInt ∧ addInt (exDist "a" "b") maxInt = minInt ∧
        intRange (subInt (exDist "a" "b") maxInt) (addInt (exDist "a" "b") maxInt) = [] ∧
        (insertAll exDist ["a", "b"]).SearchReturns exDist "b" maxInt ∧
        ((insertAll exDist ["a", "b"]).Search exDist "b" maxInt).map BKNode.word = ["a"]) :=
  ⟨by decide, by decide,
    search_misses_match_when_bound_wraps exDist (by decide) (by decide)⟩

/-- C2: on every reachable tree, `Delete(w)` of a stored word `w` (root, internal node or
leaf) returns no error, lowers `numNodes` by exactly one, and leaves exactly the old
words without `w` stored, whatever order the children are enumerated in. -/
theorem delete_stored_removes_exactly (dist : String → String → Int) (ord : BKNode → List Int)
    (hord : IterOrder ord) (t : BKDelTree) (ht : Reachable dist t) (w : String)
    (hw : w ∈ t.words) :
    (t.Delete dist ord w).2 = none ∧
      (t.Delete dist ord w).1.numNodes = t.numNodes - 1 ∧
      (∀ x, x ∈ (t.Delete dist ord w).1.words ↔ x ∈ t.words ∧ x ≠ w) := by
  obtain ⟨h1, -, h3, h4⟩ := BKDelTree.Delete_stored dist ord hord t w ht.inv hw
  refine ⟨h1, h4, ?_⟩
  have hnd := h3.nodup_iff.1 (BKDelTree.words_nodup dist t ht.inv)
  rw [List.nodup_cons] at hnd
  intro x
  rw [h3.mem_iff, List.mem_cons]
  constructor
  · intro hx
    exact ⟨Or.inr hx, fun e => hnd.1 (e ▸ hx)⟩
  · rintro ⟨hx | hx, hne⟩
    · exact absurd hx hne
    · exact hx

theorem delete_stored_removes_exactly_witness :
    IterOrder storedOrder ∧ Reachable exDist exTree ∧ "bb" ∈ exTree.words ∧
      (exTree.Delete exDist storedOrder "bb").1.words = ["a", "ee", "ddd", "c"] ∧
      ((exTree.Delete exDist storedOrder "bb").2 = none ∧
        (exTree.Delete exDist storedOrder "bb").1.numNodes = exTree.numNodes - 1 ∧
        (∀ x, x ∈ (exTree.Delete exDist storedOrder "bb").1.words ↔
          x ∈ exTree.words ∧ x ≠ "bb")) :=
  ⟨storedOrder_iterOrder, exTree_reachable, by decide, by decide,
    delete_stored_removes_exactly exDist storedOrder storedOrder_iterOrder exTree
      exTree_reachable "bb" (by decide)⟩

/-- C3: BK-tree invariant.  In every tree reachable by any sequence of `Insert` and
`Delete` calls (successful or failing), for every node `n` and every entry `(d, c)` of
its child map, `distance(n.word, c.word) = d`; in particular after a `Delete` that
reinserts the survivors of an internal node or of the root. -/
theorem child_key_is_distance (dist : String → String → Int) (t : BKDelTree)
    (ht : Reachable dist t) :
    ∀ n ∈ t.nodes, ∀ (d : Int) (c : BKNode), (d, c) ∈ n.child.entries →
      dist n.word c.word = d :=
  fun n hn d c hc =>
    BKNode.child_dist dist n (BKDelTree.inv_of_node dist t ht.inv n hn) d c hc

theorem child_key_is_distance_witness :
    Reachable exDist exTreeDel ∧
      ∀ n ∈ exTreeDel.nodes, ∀ (d : Int) (c : BKNode), (d, c) ∈ n.child.entries →
        exDist n.word c.word = d :=
  ⟨exTreeDel_reachable, child_key_is_distance exDist exTreeDel exTreeDel_reachable⟩

/-- C4: node-count invariant.  In every tree reachable by any sequence of `Insert` and
`Delete` calls, failing ones included, `numNodes` is the number of nodes reachable from
the root, and 0 when the root is absent. -/
theorem numNodes_is_node_count (dist : String → String → Int) (t : BKDelTree)
    (ht : Reachable dist t) :
    t.numNodes = (t.count : Int) ∧ (t.root = none → t.numNodes = 0) := by
  have h := BKDelTree.numNodes_eq_count dist t ht.inv
  refine ⟨h, fun hr => ?_⟩
  rw [h]
  simp [BKDelTree.count, hr]

theorem numNodes_is_node_count_witness :
    Reachable exDist exTreeDel ∧ exTreeDel.numNodes = 4 ∧
      (exTreeDel.numNodes = (exTreeDel.count : Int) ∧
        (exTreeDel.root = none → exTreeDel.numNodes = 0)) :=
  ⟨exTreeDel_reachable, by decide, numNodes_is_node_count exDist exTreeDel exTreeDel_reachable⟩

/-- C5: uniqueness invariant.  In every reachable tree no two distinct nodes hold the
same word. -/
theorem no_two_nodes_share_a_word (dist : String → String → Int) (t : BKDelTree)
    (ht : Reachable dist t) :
    t.nodes.Pairwise (fun a b => a.word ≠ b.word) := by
  have h := BKDelTree.words_nodup dist t ht.inv
  rw [BKDelTree.words_eq_node_words, List.Nodup, List.pairwise_map] at h
  exact h

theorem no_two_nodes_share_a_word_witness :
    Reachable exDist exTreeDel ∧ exTreeDel.nodes.Pairwise (fun a b => a.word ≠ b.word) :=
  ⟨exTreeDel_reachable, no_two_nodes_share_a_word exDist exTreeDel exTreeDel_reachable⟩

/-- C6: on every reachable tree, `Insert(w)` of a word already stored anywhere returns
the duplicate-word error and leaves the tree exactly as it was: same root, same nodes,
child maps and `childrenCount` values, same `numNodes`. -/
theorem insert_duplicate_is_rejected (dist : String → String → Int) (t : BKDelTree)
    (ht : Reachable dist t) (w : String) (hw : w ∈ t.words) :
    t.Insert dist w = (t, some "word already exists") :=
  BKDelTree.Insert_dup dist t w ht.inv hw

theorem insert_duplicate_is_rejected_witness :
    Reachable exDist exTree ∧ "ee" ∈ exTree.words ∧
      exTree.Insert exDist "ee" = (exTree, some "word already exists") :=
  ⟨exTree_reachable, by decide,
    insert_duplicate_is_rejected exDist exTree exTree_reachable "ee" (by decide)⟩

/-- C7: after inserting the words of a list in order into a new tree, errors ignored,
`numNodes` is the number of distinct words of the list (the length of the list when its
words are pairwise distinct), and the root holds the first word of a non-empty list. -/
theorem insertAll_counts_distinct_words (dist : String → String → Int) (ws : List String) :
    (insertAll dist ws).numNodes = (ws.dedup.length : Int) ∧
      (ws.Nodup → (insertAll dist ws).numNodes = (ws.length : Int)) ∧
      (∀ w rest, ws = w :: rest →
        ∃ r, (insertAll dist ws).root = some r ∧ r.word = w) := by
  have hinv : (insertAll dist ws).Inv dist := (Reachable.insertAll dist ws).inv
  obtain ⟨-, h2, -⟩ := foldl_Insert_words dist ws NewBKDelTree
    (by simp [BKDelTree.Inv, NewBKDelTree])
  have hmem : ∀ x, x ∈ (insertAll dist ws).words ↔ x ∈ ws.dedup := by
    intro x
    rw [List.mem_dedup]
    simpa [insertAll, BKDelTree.words, NewBKDelTree] using h2 x
  have hperm : (insertAll dist ws).words.Perm ws.dedup :=
    (List.perm_ext_iff_of_nodup (BKDelTree.words_nodup dist _ hinv) (List.nodup_dedup ws)).2 hmem
  have hnum : (insertAll dist ws).numNodes = (ws.dedup.length : Int) := by
    rw [BKDelTree.numNodes_eq_count dist _ hinv, BKDelTree.count_eq_stored, hperm.length_eq]
  refine ⟨hnum, fun hnd => ?_, ?_⟩
  · rw [hnum, hnd.dedup]
  · intro w rest hws
    subst hws
    have h0 : (NewBKDelTree.Insert dist w).1.Inv dist :=
      BKDelTree.Insert_inv dist _ w (by simp [BKDelTree.Inv, NewBKDelTree])
    obtain ⟨-, -, h3⟩ := foldl_Insert_words dist rest (NewBKDelTree.Insert dist w).1 h0
    obtain ⟨r', e, hw⟩ := h3 (newBKNode w) rfl
    exact ⟨r', e, hw⟩

theorem insertAll_counts_distinct_words_witness :
    (insertAll exDist ["a", "bb", "a", "c", "bb"]).numNodes = 3 ∧
      ((insertAll exDist ["a", "bb", "a", "c", "bb"]).numNodes =
          ((["a", "bb", "a", "c", "bb"] : List String).dedup.length : Int) ∧
        ((["a", "bb", "a", "c", "bb"] : List String).Nodup →
          (insertAll exDist ["a", "bb", "a", "c", "bb"]).numNodes =
            ((["a", "bb", "a", "c", "bb"] : List String).length : Int)) ∧
        (∀ w rest, ["a", "bb", "a", "c", "bb"] = w :: rest →
          ∃ r, (insertAll exDist ["a", "bb", "a", "c", "bb"]).root = some r ∧ r.word = w)) :=
  ⟨by decide, insertAll_counts_distinct_words exDist ["a", "bb", "a", "c", "bb"]⟩

/-- C8: on every reachable tree, `GetParent(w)` returns an error exactly when the tree is
empty or `w` is not stored (`root is nil` on the empty tree, `word not found` otherwise);
for the root's word it returns no parent and no error; for a word stored at a non-root
node it returns, without error, a node `p` of the tree whose child map holds the node
with word `w` under the key `distance(p.word, w)`. -/
theorem getParent_finds_the_parent (dist : String → String → Int) (t : BKDelTree)
    (ht : Reachable dist t) (w : String) :
    ((t.GetParent dist w).2 ≠ none ↔ (t.root = none ∨ w ∉ t.words)) ∧
      (t.root = none → t.GetParent dist w = (none, some "root is nil")) ∧
      (t.root ≠ none → w ∉ t.words → t.GetParent dist w = (none, some "word not found")) ∧
      (∀ r, t.root = some r → r.word = w → t.GetParent dist w = (none, none)) ∧
      (∀ r, t.root = some r → r.word ≠ w → w ∈ t.words →
        ∃ p c, t.GetParent dist w = (some p, none) ∧ p ∈ t.nodes ∧
          p.child.get (dist p.word w) = some c ∧ c.word = w) := by
  have hinv := ht.inv
  cases hr : t.root with
  | none =>
    have hg : t.GetParent dist w = (none, some "root is nil") := by
      simp only [BKDelTree.GetParent, hr]
    refine ⟨?_, fun _ => hg, fun h => absurd rfl h, ?_, ?_⟩
    · simp [hg]
    · intro r h; cases h
    · intro r h; cases h
  | some r =>
    have hw : t.words = r.words := by simp only [BKDelTree.words, hr]
    have hn : t.nodes = r.nodes := by simp only [BKDelTree.nodes, hr]
    have hinv' := hinv
    simp only [BKDelTree.Inv, hr] at hinv'
    have hroot : r.word = w → t.GetParent dist w = (none, none) := by
      intro h
      simp only [BKDelTree.GetParent, hr, h, if_true]
    have habs : w ∉ t.words → t.GetParent dist w = (none, some "word not found") :=
      fun h => BKDelTree.GetParent_absent dist t r w hr hinv h
    have hfound : r.word ≠ w → w ∈ t.words →
        ∃ p c, t.GetParent dist w = (some p, none) ∧ p ∈ t.nodes ∧
          p.child.get (dist p.word w) = some c ∧ c.word = w := by
      intro hne hmem
      obtain ⟨p, x, hd⟩ := BKNode.detach dist r w hinv'.1 (hw ▸ hmem) (fun e => hne e.symm)
      refine ⟨p, x, ?_, hn ▸ hd.mem, hd.get, hd.wordx⟩
      simp only [BKDelTree.GetParent, hr, hne, if_false]
      exact hd.found
    refine ⟨?_, (fun h => by cases h), fun _ => habs, ?_, ?_⟩
    · constructor
      · intro herr
        right
        intro hmem
        by_cases hrw : r.word = w
        · rw [hroot hrw] at herr; exact herr rfl
        · obtain ⟨p, c, hg, -⟩ := hfound hrw hmem
          rw [hg] at herr; exact herr rfl
      · rintro (h | h)
        · cases h
        · rw [habs h]; simp
    · intro r' h hrw
      cases h
      exact hroot hrw
    · intro r' h hrw hmem
      cases h
      exact hfound hrw hmem

theorem getParent_finds_the_parent_witness :
    Reachable exDist exTree ∧
      ((exTree.GetParent exDist "ee").1.map BKNode.word = some "bb" ∧
        exTree.GetParent exDist "a" = (none, none) ∧
        exTree.GetParent exDist "zz" = (none, some "word not found")) ∧
      (((exTree.GetParent exDist "ee").2 ≠ none ↔ (exTree.root = none ∨ "ee" ∉ exTree.words)) ∧
        (exTree.root = none → exTree.GetParent exDist "ee" = (none, some "root is nil")) ∧
        (exTree.root ≠ none → "ee" ∉ exTree.words →
          exTree.GetParent exDist "ee" = (none, some "word not found")) ∧
        (∀ r, exTree.root = some r → r.word = "ee" →
          exTree.GetParent exDist "ee" = (none, none)) ∧
        (∀ r, exTree.root = some r → r.word ≠ "ee" → "ee" ∈ exTree.words →
          ∃ p c, exTree.GetParent exDist "ee" = (some p, none) ∧ p ∈ exTree.nodes ∧
            p.child.get (exDist p.word "ee") = some c ∧ c.word = "ee")) :=
  ⟨exTree_reachable, ⟨by decide, by decide, by decide⟩,
    getParent_finds_the_parent exDist exTree exTree_reachable "ee"⟩

/-- C9: on every non-empty reachable tree, `Delete(w)` of a word that is not stored
returns the not-found error and leaves the tree unchanged: same root, same nodes and
child maps, same `numNodes`. -/
theorem delete_absent_is_rejected (dist : String → String → Int) (ord : BKNode → List Int)
    (t : BKDelTree) (ht : Reachable dist t) (hne : t.root ≠ none) (w : String)
    (hw : w ∉ t.words) :
    t.Delete dist ord w = (t, some ("word not found: " ++ w)) := by
  cases hr : t.root with
  | none => exact absurd hr hne
  | some r => exact BKDelTree.Delete_absent dist ord t r w hr ht.inv hw

theorem delete_absent_is_rejected_witness :
    Reachable exDist exTree ∧ exTree.root ≠ none ∧ "zz" ∉ exTree.words ∧
      exTree.Delete exDist storedOrder "zz" = (exTree, some ("word not found: " ++ "zz")) :=
  ⟨exTree_reachable, by decide, by decide,
    delete_absent_is_rejected exDist storedOrder exTree exTree_reachable (by decide) "zz"
      (by decide)⟩

/-- C10: for a non-negative distance that is zero exactly on equal words (no triangle
inequality), on every reachable tree `Search(w, 0)` returns exactly one node, holding
`w`, when `w` is stored, and nothing when it is not; hence it returns exactly one match
right after a successful `Insert(w)` and nothing right after `Delete(w)`. -/
theorem search_zero_is_exact_lookup (dist : String → String → Int)
    (hnn : ∀ x y, 0 ≤ dist x y) (hid : ∀ x y, dist x y = 0 ↔ x = y) (t : BKDelTree)
    (ht : Reachable dist t) (w : String) :
    (w ∈ t.words → ∃ n, t.Search dist w 0 = [n] ∧ n.word = w) ∧
      (w ∉ t.words → t.Search dist w 0 = []) ∧
      ((t.Insert dist w).2 = none →
        ∃ n, (t.Insert dist w).1.Search dist w 0 = [n] ∧ n.word = w) ∧
      (∀ ord, IterOrder ord → (t.Delete dist ord w).1.Search dist w 0 = []) := by
  have hinv := ht.inv
  refine ⟨(BKDelTree.Search_zero dist hnn hid t hinv w).1,
    (BKDelTree.Search_zero dist hnn hid t hinv w).2, ?_, ?_⟩
  · intro _
    refine (BKDelTree.Search_zero dist hnn hid _ (BKDelTree.Insert_inv dist t w hinv) w).1 ?_
    exact (BKDelTree.mem_words_Insert dist t w hinv w).2 (Or.inl rfl)
  · intro ord hord
    refine (BKDelTree.Search_zero dist hnn hid _
      (BKDelTree.Delete_inv dist ord hord t w hinv) w).2 ?_
    by_cases hmem : w ∈ t.words
    · obtain ⟨-, -, h3, -⟩ := BKDelTree.Delete_stored dist ord hord t w hinv hmem
      have hnd := h3.nodup_iff.1 (BKDelTree.words_nodup dist t hinv)
      exact (List.nodup_cons.1 hnd).1
    · cases hr : t.root with
      | none => rw [BKDelTree.Delete_empty dist ord t w hr]; exact hmem
      | some r => rw [BKDelTree.Delete_absent dist ord t r w hr hinv hmem]; exact hmem

theorem search_zero_is_exact_lookup_witness :
    (∀ x y, 0 ≤ exDist x y) ∧ (∀ x y, exDist x y = 0 ↔ x = y) ∧ Reachable exDist exTree ∧
      ((exTree.Search exDist "ee" 0).map BKNode.word = ["ee"] ∧
        (exTree.Search exDist "zz" 0).map BKNode.word = []) ∧
      (("ee" ∈ exTree.words → ∃ n, exTree.Search exDist "ee" 0 = [n] ∧ n.word = "ee") ∧
        ("ee" ∉ exTree.words → exTree.Search exDist "ee" 0 = []) ∧
        ((exTree.Insert exDist "ee").2 = none →
          ∃ n, (exTree.Insert exDist "ee").1.Search exDist "ee" 0 = [n] ∧ n.word = "ee") ∧
        (∀ ord, IterOrder ord →
          (exTree.Delete exDist ord "ee").1.Search exDist "ee" 0 = [])) :=
  ⟨exDist_isMetric.nonneg, exDist_isMetric.eq_zero, exTree_reachable, ⟨by decide, by decide⟩,
    search_zero_is_exact_lookup exDist exDist_isMetric.nonneg exDist_isMetric.eq_zero exTree
      exTree_reachable "ee"⟩

/-- C12: root lifecycle invariant.  In every reachable tree the root is absent exactly
when `numNodes = 0`, that is when no word is stored; deleting a stored word from a tree
holding at least two words leaves a root, and deleting the only stored word leaves the
root absent and `numNodes = 0`. -/
theorem root_absent_iff_no_words (dist : String → String → Int) (t : BKDelTree)
    (ht : Reachable dist t) :
    (t.root = none ↔ t.numNodes = 0) ∧ (t.root = none ↔ t.words = []) ∧
      (∀ ord w, IterOrder ord → w ∈ t.words → 2 ≤ t.words.length →
        (t.Delete dist ord w).1.root ≠ none) ∧
      (∀ ord w, IterOrder ord → t.words = [w] →
        (t.Delete dist ord w).1.root = none ∧ (t.Delete dist ord w).1.numNodes = 0) := by
  have hinv := ht.inv
  refine ⟨(BKDelTree.root_none_iff dist t hinv).1, (BKDelTree.root_none_iff dist t hinv).2,
    ?_, ?_⟩
  · intro ord w hord hw hlen hroot
    obtain ⟨-, h2, h3, -⟩ := BKDelTree.Delete_stored dist ord hord t w hinv hw
    have h := ((BKDelTree.root_none_iff dist _ h2).2).1 hroot
    have hl := h3.length_eq
    rw [h] at hl
    simp only [List.length_cons, List.length_nil] at hl
    omega
  · intro ord w hord hw
    have hmem : w ∈ t.words := by rw [hw]; exact List.mem_cons_self _ _
    obtain ⟨-, h2, h3, -⟩ := BKDelTree.Delete_stored dist ord hord t w hinv hmem
    have hl := h3.length_eq
    rw [hw] at hl
    simp only [List.length_cons, List.length_nil] at hl
    have hnil : (t.Delete dist ord w).1.words = [] := List.length_eq_zero.1 (by omega)
    have hroot := ((BKDelTree.root_none_iff dist _ h2).2).2 hnil
    exact ⟨hroot, ((BKDelTree.root_none_iff dist _ h2).1).1 hroot⟩

theorem root_absent_iff_no_words_witness :
    Reachable exDist exTree ∧ (exTree.Delete exDist storedOrder "a").1.root ≠ none ∧
      ((insertAll exDist ["a"]).Delete exDist storedOrder "a").1 = NewBKDelTree ∧
      ((exTree.root = none ↔ exTree.numNodes = 0) ∧ (exTree.root = none ↔ exTree.words = []) ∧
        (∀ ord w, IterOrder ord → w ∈ exTree.words → 2 ≤ exTree.words.length →
          (exTree.Delete exDist ord w).1.root ≠ none) ∧
        (∀ ord w, IterOrder ord → exTree.words = [w] →
          (exTree.Delete exDist ord w).1.root = none ∧
            (exTree.Delete exDist ord w).1.numNodes = 0)) :=
  ⟨exTree_reachable, by decide, by decide,
    root_absent_iff_no_words exDist exTree exTree_reachable⟩

/-- C13: child-count invariant.  In every reachable tree, every node's `childrenCount`
equals the number of entries of its child map. -/
theorem childrenCount_is_map_size (dist : String → String → Int) (t : BKDelTree)
    (ht : Reachable dist t) :
    ∀ n ∈ t.nodes, n.childrenCount = (n.child.entries.length : Int) :=
  fun n hn => BKNode.childrenCount_eq dist n (BKDelTree.inv_of_node dist t ht.inv n hn)

theorem childrenCount_is_map_size_witness :
    Reachable exDist exTreeDel ∧
      exTreeDel.nodes.map (fun n => (n.word, n.childrenCount)) =
        [("a", 3), ("ee", 0), ("ddd", 0), ("c", 0)] ∧
      ∀ n ∈ exTreeDel.nodes, n.childrenCount = (n.child.entries.length : Int) :=
  ⟨exTreeDel_reachable, by decide,
    childrenCount_is_map_size exDist exTreeDel exTreeDel_reachable⟩

/-- C14: for every word `w`, `Delete(w)` on an empty tree returns no error and leaves the
tree empty: root absent and `numNodes = 0`. -/
theorem delete_on_empty_is_noop (dist : String → String → Int) (ord : BKNode → List Int)
    (t : BKDelTree) (ht : Reachable dist t) (hr : t.root = none) (w : String) :
    t.Delete dist ord w = (t, none) ∧ (t.Delete dist ord w).1.root = none ∧
      (t.Delete dist ord w).1.numNodes = 0 := by
  rw [BKDelTree.Delete_empty dist ord t w hr]
  exact ⟨rfl, hr, ((BKDelTree.root_none_iff dist t ht.inv).1).1 hr⟩

theorem delete_on_empty_is_noop_witness :
    Reachable exDist NewBKDelTree ∧ NewBKDelTree.root = none ∧
      (NewBKDelTree.Delete exDist storedOrder "abc" = (NewBKDelTree, none) ∧
        (NewBKDelTree.Delete exDist storedOrder "abc").1.root = none ∧
        (NewBKDelTree.Delete exDist storedOrder "abc").1.numNodes = 0) :=
  ⟨Reachable.new, rfl,
    delete_on_empty_is_noop exDist storedOrder NewBKDelTree Reachable.new rfl "abc"⟩

/-- C15, as stated, fails on the empty tree: `abc` is not stored in the new tree, yet
`Delete("abc")` returns no error. -/
theorem delete_absent_on_empty_returns_no_error :
    "abc" ∉ NewBKDelTree.words ∧ (NewBKDelTree.Delete exDist storedOrder "abc").2 = none := by
  decide

/-- C15, amended: for every tree with a root and every word `w` that is not stored in it,
`Delete(w)` fails with the not-found error and the node count is unchanged. -/
theorem delete_absent_fails_on_nonempty (dist : String → String → Int)
    (ord : BKNode → List Int) (t : BKDelTree) (hne : t.root ≠ none) (w : String)
    (hw : w ∉ t.words) :
    (t.Delete dist ord w).2 = some ("word not found: " ++ w) ∧
      (t.Delete dist ord w).1.numNodes = t.numNodes ∧
      (t.Delete dist ord w).1.count = t.count := by
  rw [BKDelTree.Delete_not_stored dist ord t w hne hw]
  exact ⟨rfl, rfl, rfl⟩

theorem delete_absent_fails_on_nonempty_witness :
    exTree.root ≠ none ∧ "zz" ∉ exTree.words ∧
      ((exTree.Delete exDist storedOrder "zz").2 = some ("word not found: " ++ "zz") ∧
        (exTree.Delete exDist storedOrder "zz").1.numNodes = exTree.numNodes ∧
        (exTree.Delete exDist storedOrder "zz").1.count = exTree.count) :=
  ⟨by decide, by decide,
    delete_absent_fails_on_nonempty exDist storedOrder exTree (by decide) "zz" (by decide)⟩

/-- C17: subtree-distance invariant.  In every reachable tree, for every node `n`, every
entry `(d, c)` of its child map and every node `m` of the subtree rooted at `c`,
`distance(n.word, m.word) = d`. -/
theorem subtree_key_is_distance (dist : String → String → Int) (t : BKDelTree)
    (ht : Reachable dist t) :
    ∀ n ∈ t.nodes, ∀ (d : Int) (c : BKNode), (d, c) ∈ n.child.entries →
      ∀ m ∈ c.nodes, dist n.word m.word = d :=
  fun n hn d c hc =>
    BKNode.subtree_dist dist n (BKDelTree.inv_of_node dist t ht.inv n hn) d c hc

theorem subtree_key_is_distance_witness :
    Reachable exDist exTree ∧
      ∀ n ∈ exTree.nodes, ∀ (d : Int) (c : BKNode), (d, c) ∈ n.child.entries →
        ∀ m ∈ c.nodes, exDist n.word m.word = d :=
  ⟨exTree_reachable, subtree_key_is_distance exDist exTree exTree_reachable⟩

/-- C18: insert-then-delete round trip.  For every reachable tree `t` (the empty tree
included), every word `w` not stored in `t` and every enumeration order, `Insert(w)`
followed by `Delete(w)` both succeed and restore `t` exactly: same root, same nodes under
the same keys, same `childrenCount` on every node and same `numNodes`. -/
theorem insert_then_delete_restores (dist : String → String → Int) (ord : BKNode → List Int)
    (t : BKDelTree) (ht : Reachable dist t) (w : String) (hw : w ∉ t.words) :
    (t.Insert dist w).2 = none ∧ ((t.Insert dist w).1.Delete dist ord w).2 = none ∧
      ((t.Insert dist w).1.Delete dist ord w).1 = t := by
  obtain ⟨h1, h2⟩ := BKDelTree.Insert_then_Delete dist ord t ht.inv w hw
  rw [h2]
  exact ⟨h1, rfl, rfl⟩

theorem insert_then_delete_restores_witness :
    Reachable exDist exTree ∧ "f" ∉ exTree.words ∧
      (exTree.Insert exDist "f").1.words = ["a", "ddd", "c", "f", "bb", "ee"] ∧
      ((exTree.Insert exDist "f").2 = none ∧
        ((exTree.Insert exDist "f").1.Delete exDist storedOrder "f").2 = none ∧
        ((exTree.Insert exDist "f").1.Delete exDist storedOrder "f").1 = exTree) :=
  ⟨exTree_reachable, by decide, by decide,
    insert_then_delete_restores exDist storedOrder exTree exTree_reachable "f" (by decide)⟩

/-- C11: on a reachable tree, a successful `Insert(w)` into a non-empty tree gives the old
tree plus exactly one new childless node holding `w`, attached under the key
`distance(p.word, w)` to the node `p` reached from the root by following
`child[distance(n.word, w)]` until that key is vacant: the root keeps its word, the
parent-child links are the old ones plus the new link, every old node keeps its word and
its `childrenCount` except `p`, whose count grows by one, and `numNodes` grows by one.
On the empty tree `w` becomes the root and `numNodes` is 1. -/
theorem insert_adds_one_leaf (dist : String → String → Int) (t : BKDelTree)
    (ht : Reachable dist t) (w : String) (hok : (t.Insert dist w).2 = none) :
    (t.root = none → (t.Insert dist w).1 = { root := some (newBKNode w), numNodes := 1 }) ∧
      (∀ r, t.root = some r → ∃ r' labels,
        (t.Insert dist w).1 = { root := some r', numNodes := t.numNodes + 1 } ∧
        r'.word = r.word ∧
        r.descend dist w ∈ r.nodes ∧
        (r.descend dist w).child.get (dist (r.descend dist w).word w) = none ∧
        r'.edges.Perm
          (((r.descend dist w).word, dist (r.descend dist w).word w, w) :: r.edges) ∧
        (r.nodes.map BKNode.label).Perm ((r.descend dist w).label :: labels) ∧
        (r'.nodes.map BKNode.label).Perm
          ((w, 0) :: ((r.descend dist w).word, (r.descend dist w).childrenCount + 1) ::
            labels) ∧
        newBKNode w ∈ r'.nodes) := by
  have hinv := ht.inv
  have hmem : w ∉ t.words := by
    intro h
    rw [BKDelTree.Insert_dup dist t w hinv h] at hok
    cases hok
  constructor
  · intro hr
    have h0 := ((BKDelTree.root_none_iff dist t hinv).1).1 hr
    simp only [BKDelTree.Insert, hr, h0, zero_add]
  · intro r hr
    cases t with
    | mk root numNodes =>
      simp only at hr
      subst hr
      simp only [BKDelTree.Inv] at hinv
      simp only [BKDelTree.words] at hmem
      obtain ⟨labels, hf⟩ := BKNode.insert_frame dist r w hinv.1 hmem
      exact ⟨(r.insert dist w).1, labels, (congrArg Prod.fst
        (BKDelTree.Insert_some dist r numNodes w hinv.1 hmem)), BKNode.insert_word dist r w,
        hf.mem, hf.vacant, hf.edges, hf.old, hf.new, hf.leaf⟩

theorem insert_adds_one_leaf_witness :
    Reachable exDist exTree ∧ (exTree.Insert exDist "f").2 = none ∧
      (exTree.nodes.map BKNode.label = [("a", 3), ("ddd", 0), ("c", 0), ("bb", 1), ("ee", 0)] ∧
        (exTree.Insert exDist "f").1.nodes.map BKNode.label =
          [("a", 3), ("ddd", 0), ("c", 1), ("f", 0), ("bb", 1), ("ee", 0)]) ∧
      ((exTree.root = none →
          (exTree.Insert exDist "f").1 = { root := some (newBKNode "f"), numNodes := 1 }) ∧
        (∀ r, exTree.root = some r → ∃ r' labels,
          (exTree.Insert exDist "f").1 = { root := some r', numNodes := exTree.numNodes + 1 } ∧
          r'.word = r.word ∧
          r.descend exDist "f" ∈ r.nodes ∧
          (r.descend exDist "f").child.get (exDist (r.descend exDist "f").word "f") = none ∧
          r'.edges.Perm
            (((r.descend exDist "f").word, exDist (r.descend exDist "f").word "f", "f") ::
              r.edges) ∧
          (r.nodes.map BKNode.label).Perm ((r.descend exDist "f").label :: labels) ∧
          (r'.nodes.map BKNode.label).Perm
            (("f", 0) ::
              ((r.descend exDist "f").word, (r.descend exDist "f").childrenCount + 1) ::
                labels) ∧
          newBKNode "f" ∈ r'.nodes)) :=
  ⟨exTree_reachable, by decide, ⟨by decide, by decide⟩,
    insert_adds_one_leaf exDist exTree exTree_reachable "f" (by decide)⟩

/-- C16: on a reachable tree with at least two nodes, deleting the root's word yields
exactly the tree obtained by collecting the old tree in pre-order (each node, then the
collection of each child in enumeration order), dropping the first entry (the old root)
and inserting the remaining words in that order into a new tree; all those inserts
succeed, and the new root holds the word of the first node collected after the old root,
which is a direct child of the old root. -/
theorem delete_root_rebuilds_from_preorder (dist : String → String → Int)
    (ord : BKNode → List Int) (hord : IterOrder ord) (t : BKDelTree) (ht : Reachable dist t)
    (r : BKNode) (hr : t.root = some r) (h2 : 2 ≤ t.numNodes) :
    (∀ n : BKNode, n.collectFamily ord = n ::
        ((ord n).map (fun i =>
          match n.child.get i with
          | some c => c.collectFamily ord
          | none => [])).flatten) ∧
      (t.Delete dist ord r.word).2 = none ∧
      (t.Delete dist ord r.word).1 =
        insertAll dist ((r.collectFamily ord).tail.map BKNode.word) ∧
      (∀ l1 s l2, (r.collectFamily ord).tail = l1 ++ s :: l2 →
        ((insertAll dist (l1.map BKNode.word)).Insert dist s.word).2 = none) ∧
      ∃ k c r', (ord r).head? = some k ∧ (k, c) ∈ r.child.entries ∧
        (r.collectFamily ord).tail.head? = some c ∧
        (t.Delete dist ord r.word).1.root = some r' ∧ r'.word = c.word := by
  have hinv := ht.inv
  simp only [BKDelTree.Inv, hr] at hinv
  have htail := BKNode.collectFamily_tail dist ord hord r hinv.1
  have hnd : ((r.collectFamily ord).tail.map BKNode.word).Nodup := by
    refine htail.nodup_iff.2 ?_
    have h := BKNode.inv_nodup dist r hinv.1
    cases r with
    | mk w cc ch => exact (List.nodup_cons.1 h).2
  have hch : r.child ≠ .nil := by
    intro h
    cases r with
    | mk w cc ch =>
      simp only [BKNode.child] at h
      subst h
      rw [hinv.2] at h2
      simp [BKNode.count, BKMap.count] at h2
  obtain ⟨k, c, hk, hc, hsec⟩ := BKNode.collectFamily_second ord hord r hch
  refine ⟨BKNode.collectFamily_preorder ord, ?_, BKDelTree.Delete_root_eq dist ord t r hr, ?_, ?_⟩
  · rw [BKDelTree.Delete_root dist ord t r hr]
  · intro l1 s l2 hsplit
    refine insertAll_snoc_ok dist (l1.map BKNode.word) s.word ?_
    rw [hsplit] at hnd
    simp only [List.map_append, List.map_cons] at hnd
    have h := (List.nodup_append.1 hnd)
    refine List.Nodup.append h.1 (List.nodup_singleton _) ?_
    intro x hx hx'
    rw [List.mem_singleton] at hx'
    exact h.2.2 hx (hx' ▸ List.mem_cons_self _ _)
  · cases hl : (r.collectFamily ord).tail with
    | nil => rw [hl] at hsec; cases hsec
    | cons s rest =>
      rw [hl] at hsec
      simp only [List.head?_cons, Option.some.injEq] at hsec
      subst hsec
      obtain ⟨r', e, hw⟩ := insertAll_root dist s.word (rest.map BKNode.word)
      refine ⟨k, s, r', hk, hc, rfl, ?_, hw⟩
      rw [BKDelTree.Delete_root_eq dist ord t r hr, hl]
      exact e

theorem delete_root_rebuilds_from_preorder_witness :
    IterOrder storedOrder ∧ Reachable exDist exTree ∧ exTree.root = some
        (.mk "a" 3 (.cons 3 (.mk "ddd" 0 .nil) (.cons 1 (.mk "c" 0 .nil)
          (.cons 2 (.mk "bb" 1 (.cons 1 (.mk "ee" 0 .nil) .nil)) .nil)))) ∧
      (2 : Int) ≤ exTree.numNodes ∧
      (exTree.Delete exDist storedOrder "a").1 = insertAll exDist ["ddd", "c", "bb", "ee"] ∧
      ∃ k c r', (storedOrder (.mk "a" 3 (.cons 3 (.mk "ddd" 0 .nil) (.cons 1 (.mk "c" 0 .nil)
          (.cons 2 (.mk "bb" 1 (.cons 1 (.mk "ee" 0 .nil) .nil)) .nil))))).head? = some k ∧
        (k, c) ∈ (BKNode.mk "a" 3 (.cons 3 (.mk "ddd" 0 .nil) (.cons 1 (.mk "c" 0 .nil)
          (.cons 2 (.mk "bb" 1 (.cons 1 (.mk "ee" 0 .nil) .nil)) .nil)))).child.entries ∧
        ((BKNode.mk "a" 3 (.cons 3 (.mk "ddd" 0 .nil) (.cons 1 (.mk "c" 0 .nil)
          (.cons 2 (.mk "bb" 1 (.cons 1 (.mk "ee" 0 .nil) .nil)) .nil)))).collectFamily
            storedOrder).tail.head? = some c ∧
        (exTree.Delete exDist storedOrder "a").1.root = some r' ∧ r'.word = c.word :=
  ⟨storedOrder_iterOrder, exTree_reachable, by decide, by decide, by decide,
    (delete_root_rebuilds_from_preorder exDist storedOrder storedOrder_iterOrder exTree
      exTree_reachable _ (by decide) (by decide)).2.2.2.2⟩

/-- C19: frame of a non-root `Delete`.  On a reachable tree, for a word `w` stored at a
non-root node `x` with parent `p`, after `Delete(w)` the root still holds its word, every
parent-child link of the old tree other than the link to `x` and the links below `x` is
kept, and the only other links are new ones, one for each former descendant of `x`; the
stored words are the old ones without `w`. -/
theorem delete_below_root_keeps_the_rest (dist : String → String → Int)
    (ord : BKNode → List Int) (hord : IterOrder ord) (t : BKDelTree) (ht : Reachable dist t)
    (r : BKNode) (hr : t.root = some r) (w : String) (hw : w ∈ t.words) (hne : w ≠ r.word) :
    ∃ p x r' kept added,
      t.GetParent dist w = (some p, none) ∧ p ∈ r.nodes ∧
      p.child.get (dist p.word w) = some x ∧ x.word = w ∧
      (t.Delete dist ord w).1.root = some r' ∧ r'.word = r.word ∧
      r.edges.Perm ((p.word, dist p.word w, w) :: (x.edges ++ kept)) ∧
      r'.edges.Perm (added ++ kept) ∧
      (added.map (fun e => e.2.2)).Perm x.child.words ∧
      r.words.Perm (w :: r'.words) := by
  obtain ⟨p, x, r', kept, added, h1, h2, h3, h4, h5, h6, h7, h8, h9⟩ :=
    BKDelTree.Delete_frame dist ord hord t r w hr ht.inv hw hne
  refine ⟨p, x, r', kept, added, h1, h2, h3, h4, h5, h6, h7, h8, h9, ?_⟩
  have h := (BKDelTree.Delete_stored dist ord hord t w ht.inv hw).2.2.1
  simpa only [BKDelTree.words, hr, h5] using h

theorem delete_below_root_keeps_the_rest_witness :
    IterOrder storedOrder ∧ Reachable exDist exTree ∧ "bb" ∈ exTree.words ∧
      (exTree.nodes.map BKNode.edges).head? =
        some [("a", 3, "ddd"), ("a", 1, "c"), ("a", 2, "bb"), ("bb", 1, "ee")] ∧
      ((exTree.Delete exDist storedOrder "bb").1.nodes.map BKNode.edges).head? =
        some [("a", 2, "ee"), ("a", 3, "ddd"), ("a", 1, "c")] ∧
      ∃ r, exTree.root = some r ∧ "bb" ≠ r.word ∧
        ∃ p x r' kept added,
          exTree.GetParent exDist "bb" = (some p, none) ∧ p ∈ r.nodes ∧
          p.child.get (exDist p.word "bb") = some x ∧ x.word = "bb" ∧
          (exTree.Delete exDist storedOrder "bb").1.root = some r' ∧ r'.word = r.word ∧
          r.edges.Perm ((p.word, exDist p.word "bb", "bb") :: (x.edges ++ kept)) ∧
          r'.edges.Perm (added ++ kept) ∧
          (added.map (fun e => e.2.2)).Perm x.child.words ∧
          r.words.Perm ("bb" :: r'.words) :=
  ⟨storedOrder_iterOrder, exTree_reachable, by decide, by decide, by decide,
    ⟨_, rfl, by decide,
      delete_below_root_keeps_the_rest exDist storedOrder storedOrder_iterOrder exTree
        exTree_reachable _ rfl "bb" (by decide) (by decide)⟩⟩

/-- C20: on a reachable tree whose stored words contain no newline, for an indent unit
containing no newline and any enumeration order, `SPPrintf` returns the concatenation of
exactly one newline-terminated line per stored node, none of which contains another
newline, so the number of newline characters is `numNodes`, the number of stored words;
on the empty tree it returns the empty string. -/
theorem SPPrintf_writes_one_line_per_node (dist : String → String → Int)
    (ord : BKNode → List Int) (hord : IterOrder ord) (t : BKDelTree) (ht : Reachable dist t)
    (indentChar : String) (hw : ∀ w ∈ t.words, '\n' ∉ w.data)
    (hi : '\n' ∉ indentChar.data) :
    (t.root = none → t.SPPrintf ord indentChar = "") ∧
      ∃ entries : List (BKNode × Nat × Int),
        (entries.map (fun e => e.1)).Perm t.nodes ∧
        (entries.length : Int) = t.numNodes ∧
        (∀ e ∈ entries, '\n' ∉
          (pprintText e.1 e.2.1 (if indentChar = "" then ". " else indentChar) e.2.2).data) ∧
        t.SPPrintf ord indentChar = String.join (entries.map (fun e =>
          pprintText e.1 e.2.1 (if indentChar = "" then ". " else indentChar) e.2.2 ++ "\n")) ∧
        (t.SPPrintf ord indentChar).data.count '\n' = t.words.length := by
  have hinv := ht.inv
  have hi' : '\n' ∉ (if indentChar = "" then ". " else indentChar).data := by
    split
    · decide
    · exact hi
  cases hr : t.root with
  | none =>
    simp only [BKDelTree.Inv, hr] at hinv
    refine ⟨(fun _ => by simp only [BKDelTree.SPPrintf, hr]), [], ?_, ?_, ?_, ?_, ?_⟩
    · simp [BKDelTree.nodes, hr]
    · simp [hinv]
    · intro e he; cases he
    · simp only [BKDelTree.SPPrintf, hr]; rfl
    · simp only [BKDelTree.SPPrintf, hr, BKDelTree.words]; rfl
  | some r =>
    simp only [BKDelTree.Inv, hr] at hinv
    have hperm : ((r.printed ord 0 0).map (fun e => e.1)).Perm r.nodes := by
      rw [BKNode.printed_nodes]
      exact BKNode.collectFamily_perm dist ord hord r hinv.1
    have hlen : (r.printed ord 0 0).length = r.words.length := by
      have h := hperm.length_eq
      rw [List.length_map] at h
      rw [h, BKNode.words_eq_map_nodes, List.length_map]
    have hno : ∀ e ∈ r.printed ord 0 0, '\n' ∉
        (pprintText e.1 e.2.1 (if indentChar = "" then ". " else indentChar) e.2.2).data := by
      intro e he
      refine pprintText_no_newline _ _ _ _ (hw e.1.word ?_) hi'
      simp only [BKDelTree.words, hr, BKNode.words_eq_map_nodes]
      exact List.mem_map_of_mem _ (hperm.subset (List.mem_map_of_mem (fun e => e.1) he))
    have hdata := BKNode.pprint_data ord (if indentChar = "" then ". " else indentChar) r "" 0 0
    refine ⟨(fun h => by cases h), r.printed ord 0 0, ?_, ?_, hno, ?_, ?_⟩
    · simpa only [BKDelTree.nodes, hr] using hperm
    · rw [hlen, hinv.2, BKNode.count_eq_length]
    · apply String.ext
      simp only [BKDelTree.SPPrintf, hr, hdata, String.data_join, List.map_map]
      rfl
    · simp only [BKDelTree.SPPrintf, hr, hdata, BKDelTree.words]
      have hc := count_newline_lines
        ((r.printed ord 0 0).map
          (fun e => pprintText e.1 e.2.1 (if indentChar = "" then ". " else indentChar) e.2.2))
        (by
          intro l hl
          obtain ⟨e, he, rfl⟩ := List.mem_map.1 hl
          exact hno e he)
      simp only [List.map_map, List.length_map] at hc
      rw [← hlen, ← hc]
      rfl

theorem SPPrintf_writes_one_line_per_node_witness :
    IterOrder storedOrder ∧ Reachable exDist exTree ∧
      (∀ w ∈ exTree.words, '\n' ∉ w.data) ∧ '\n' ∉ ("--" : String).data ∧
      exTree.SPPrintf storedOrder "--" =
        "a:cc[3] (0)\n--ddd:cc[0] (3)\n--c:cc[0] (1)\n--bb:cc[1] (2)\n----ee:cc[0] (1)\n" ∧
      ((exTree.root = none → exTree.SPPrintf storedOrder "--" = "") ∧
        ∃ entries : List (BKNode × Nat × Int),
          (entries.map (fun e => e.1)).Perm exTree.nodes ∧
          (entries.length : Int) = exTree.numNodes ∧
          (∀ e ∈ entries, '\n' ∉
            (pprintText e.1 e.2.1 (if ("--" : String) = "" then ". " else "--") e.2.2).data) ∧
          exTree.SPPrintf storedOrder "--" = String.join (entries.map (fun e =>
            pprintText e.1 e.2.1 (if ("--" : String) = "" then ". " else "--") e.2.2 ++ "\n")) ∧
          (exTree.SPPrintf storedOrder "--").data.count '\n' = exTree.words.length) :=
  ⟨storedOrder_iterOrder, exTree_reachable, by decide, by decide, by decide,
    SPPrintf_writes_one_line_per_node exDist storedOrder storedOrder_iterOrder exTree
      exTree_reachable "--" (by decide) (by decide)⟩

end Bkdeltree
